import Mathlib

/-!
Verification development for the cogip-tools perception/navigation core.

Shallow embedding of:
* `Avoidance.cpp` (`avoidance`, `validate_obstacle_points`, `build_avoidance_graph`,
  `dijkstra`, path recovery, `is_point_in_table_limits` from `Avoidance.hpp`);
* `LidarDataConverter.cpp` (`convert`);
* `ldlidar_driver.cpp` (`assemblePacket`);
* `WritePriorityLock.cpp` (reader/writer protocol, as a transition system).

Scalar values (C++ `double`/`float`) are modelled by an arbitrary linear ordered
field `α` (instantiated with `ℚ` for executable witnesses and with `ℝ` for the
statements about Euclidean distances); `std::hypot` is modelled through an explicit
square-root parameter `sqrtFn`, instantiated with `Real.sqrt` at `ℝ`.
-/

namespace Cogip

/-- Planar coordinates, modelling `models::Coords` (two doubles). -/
structure Coords (α : Type) where
  x : α
  y : α
deriving DecidableEq, Repr

/-- Table limits, modelling the `table_limits_` array `[x_min, x_max, y_min, y_max]`. -/
structure TableLimits (α : Type) where
  xMin : α
  xMax : α
  yMin : α
  yMax : α
deriving DecidableEq, Repr

variable {α : Type} [LinearOrderedCommRing α]

/-- Embedding of `Avoidance::is_point_in_table_limits` (Avoidance.hpp, lines 130-138):
strict comparisons against the limits shrunk by the margin on both axes. -/
def is_point_in_table_limits (lim : TableLimits α) (margin : α) (p : Coords α) : Bool :=
  (decide (lim.xMin + margin < p.x) && decide (p.x < lim.xMax - margin)) &&
  (decide (lim.yMin + margin < p.y) && decide (p.y < lim.yMax - margin))

/-- Abstract dynamic obstacle: the virtual interface `obstacles::Obstacle`
(`is_point_inside`, `is_segment_crossing`, `nearest_point`, `center`, `bounding_box`)
used by `Avoidance.cpp`.  The concrete shape classes are out of scope (spec section 1);
an obstacle is a record of its observable behaviours. -/
structure Obstacle (α : Type) where
  is_point_inside : Coords α → Bool
  is_segment_crossing : Coords α → Coords α → Bool
  nearest_point : Coords α → Coords α
  center : Coords α
  bounding_box : List (Coords α)

/-- Embedding of `Avoidance::is_point_in_obstacles` with `filter = nullptr`
(Avoidance.cpp, lines 96-107). -/
def is_point_in_obstacles (obstacles : List (Obstacle α)) (p : Coords α) : Bool :=
  obstacles.any fun o => o.is_point_inside p

/-- Embedding of the validation loop of `Avoidance::avoidance` (Avoidance.cpp,
lines 63-73): for each obstacle in order, fail if the finish pose is inside it,
otherwise snap the running start pose to the obstacle's nearest boundary point
when the start pose is inside it.  `none` models the `return false` branch. -/
def validate_poses (obstacles : List (Obstacle α)) (startP finishP : Coords α) :
    Option (Coords α) :=
  match obstacles with
  | [] => some startP
  | o :: rest =>
    if o.is_point_inside finishP then none
    else validate_poses rest
      (if o.is_point_inside startP then o.nearest_point startP else startP) finishP

/-- One snapping step of the validation loop, applied per obstacle to the running
start pose. -/
def snap_step (p : Coords α) (o : Obstacle α) : Coords α :=
  if o.is_point_inside p then o.nearest_point p else p

/-- Embedding of `Avoidance::validate_obstacle_points` (Avoidance.cpp, lines 123-144):
for every obstacle whose center is inside the table limits, keep the bounding-box
points that are inside the table limits and not inside any obstacle. -/
def validate_obstacle_points (lim : TableLimits α) (margin : α)
    (obstacles : List (Obstacle α)) : List (Coords α) :=
  obstacles.foldl
    (fun acc o =>
      if is_point_in_table_limits lim margin o.center then
        acc ++ o.bounding_box.filter
          (fun p => is_point_in_table_limits lim margin p &&
            !(is_point_in_obstacles obstacles p))
      else acc) []

/-- The `valid_points_` vector at graph-building time: snapped start, finish, then
the validated obstacle bounding-box points (Avoidance.cpp, lines 78 and 136). -/
def valid_points (lim : TableLimits α) (margin : α) (obstacles : List (Obstacle α))
    (startP finishP : Coords α) : List (Coords α) :=
  startP :: finishP :: validate_obstacle_points lim margin obstacles

/-- Lookup of `valid_points_[i]`; indices are always in range in the embedded code. -/
def point_at (pts : List (Coords α)) (i : ℕ) : Coords α :=
  (pts.get? i).getD ⟨0, 0⟩

/-- Embedding of `utils::calculate_distance` (trigonometry.hpp, lines 73-79):
`hypot(x2-x1, y2-y1) = sqrt((x2-x1)^2 + (y2-y1)^2)`, with the square root passed
explicitly (`Real.sqrt` at `ℝ`). -/
def calculate_distance (sqrtFn : α → α) (x1 y1 x2 y2 : α) : α :=
  sqrtFn ((x2 - x1) ^ 2 + (y2 - y1) ^ 2)

/-- The collision test of the edge loop in `Avoidance::build_avoidance_graph`
(Avoidance.cpp, lines 157-163): some dynamic obstacle crosses the segment.
Note: all dynamic obstacles are consulted, with no world-bounds filter. -/
def segment_collides (obstacles : List (Obstacle α)) (a b : Coords α) : Bool :=
  obstacles.any fun o => o.is_segment_crossing a b

/-- Index pairs `(i, j)` with `i < j < n`, in the iteration order of the nested
loops of `build_avoidance_graph` (Avoidance.cpp, lines 153-155). -/
def graph_pairs (n : ℕ) : List (ℕ × ℕ) :=
  (List.range n).flatMap fun i =>
    ((List.range n).filter fun j => decide (i < j)).map fun j => (i, j)

/-- Map insertion `graph_[a][b] = w`. -/
def update_edge (g : ℕ → ℕ → Option α) (a b : ℕ) (w : α) : ℕ → ℕ → Option α :=
  fun i j => if i = a ∧ j = b then some w else g i j

/-- One iteration of the edge loop of `build_avoidance_graph` (Avoidance.cpp,
lines 155-174) on the pair `ij`: skip on collision, else insert the symmetric
edge weighted by the Euclidean distance. -/
def build_edge_step (sqrtFn : α → α) (obstacles : List (Obstacle α))
    (pts : List (Coords α)) (g : ℕ → ℕ → Option α) (ij : ℕ × ℕ) : ℕ → ℕ → Option α :=
  if segment_collides obstacles (point_at pts ij.1) (point_at pts ij.2) then g
  else
    update_edge
      (update_edge g ij.1 ij.2
        (calculate_distance sqrtFn (point_at pts ij.1).x (point_at pts ij.1).y
          (point_at pts ij.2).x (point_at pts ij.2).y))
      ij.2 ij.1
      (calculate_distance sqrtFn (point_at pts ij.1).x (point_at pts ij.1).y
        (point_at pts ij.2).x (point_at pts ij.2).y)

/-- Embedding of `Avoidance::build_avoidance_graph` (Avoidance.cpp, lines 146-178):
for each pair `i < j` of valid points, if no dynamic obstacle crosses the segment,
insert the symmetric edge weighted by the Euclidean distance. -/
def build_avoidance_graph (sqrtFn : α → α) (obstacles : List (Obstacle α))
    (pts : List (Coords α)) : ℕ → ℕ → Option α :=
  (graph_pairs pts.length).foldl (build_edge_step sqrtFn obstacles pts)
    (fun _ _ => none)

/-! ### Dijkstra (Avoidance.cpp, lines 180-244)

Weights live in an arbitrary linearly ordered additive monoid `W` (the C++ code
uses `double`); tentative distances live in `WithTop W`, where `⊤` models
`MAX_DISTANCE = infinity`.  `START_INDEX = 0`, `FINISH_INDEX = 1`.
The `while` loop is modelled with explicit fuel (`n + 1`), proven sufficient below
(`dijkstraRun_ne_fuelOut`); `checked` is modelled as the list of checked indices
in checking order. -/

def START_INDEX : ℕ := 0

def FINISH_INDEX : ℕ := 1

variable {W : Type} [LinearOrderedAddCommMonoid W]

/-- The relaxation of the neighbor distances of `v` (Avoidance.cpp, lines 210-215):
for each edge `v → u`, improve `distances[u]` when `distances[v] + weight` is smaller. -/
def relax_dist (g : ℕ → ℕ → Option W) (v : ℕ) (dist : ℕ → WithTop W) :
    ℕ → WithTop W := fun u =>
  match g v u with
  | some c => if dist v + (c : WithTop W) < dist u then dist v + (c : WithTop W) else dist u
  | none => dist u

/-- The parent-map update accompanying `relax_dist` (Avoidance.cpp, line 213). -/
def relax_parent (g : ℕ → ℕ → Option W) (v : ℕ) (dist : ℕ → WithTop W)
    (parent : ℕ → ℤ) : ℕ → ℤ := fun u =>
  match g v u with
  | some c => if dist v + (c : WithTop W) < dist u then (v : ℤ) else parent u
  | none => parent u

/-- The running `min_distance` during the selection scan: infinity while no
candidate has been found, else the candidate's distance. -/
def sel_cost (dist : ℕ → WithTop W) : Option ℕ → WithTop W
  | none => ⊤
  | some j => dist j

/-- One comparison of the selection scan (Avoidance.cpp, lines 218-222): take
index `i` as the new candidate when it is unchecked and strictly closer than the
running minimum. -/
def sel_step (settled : List ℕ) (dist : ℕ → WithTop W) (acc : Option ℕ) (i : ℕ) :
    Option ℕ :=
  if i ∉ settled ∧ dist i < sel_cost dist acc then some i else acc

/-- The selection scan of Avoidance.cpp, lines 217-223: iterate the `distances`
map in key order and keep the first unchecked index of strictly smallest distance;
`none` models `min_distance == MAX_DISTANCE`. -/
def select_min (n : ℕ) (settled : List ℕ) (dist : ℕ → WithTop W) : Option ℕ :=
  (List.range n).foldl (sel_step settled dist) none

/-- Result of the Dijkstra main loop: final `distances`/`parents`/checked list on
normal loop exit, `failure` for the `return false` paths, `fuelOut` for fuel
exhaustion (proven unreachable). -/
inductive DOutcome (W : Type) where
  | success : (ℕ → WithTop W) → (ℕ → ℤ) → List ℕ → DOutcome W
  | failure : DOutcome W
  | fuelOut : DOutcome W

/-- The `while ((v != finish) && !checked[v])` loop of `Avoidance::dijkstra`
(Avoidance.cpp, lines 206-230): mark `v` checked, relax its neighbors, then select
the unchecked index of minimal distance, failing when none is finite. -/
def dijkstraLoop (g : ℕ → ℕ → Option W) (n : ℕ) :
    ℕ → List ℕ → (ℕ → WithTop W) → (ℕ → ℤ) → ℕ → DOutcome W
  | 0, _, _, _, _ => .fuelOut
  | fuel + 1, settled, dist, parent, v =>
    if v = FINISH_INDEX then .success dist parent settled
    else if v ∈ settled then .success dist parent settled
    else
      let settled' := settled ++ [v]
      let dist' := relax_dist g v dist
      let parent' := relax_parent g v dist parent
      match select_min n settled' dist' with
      | none => .failure
      | some v' => dijkstraLoop g n fuel settled' dist' parent' v'

/-- Whether the start node has outgoing edges: the negation of
`graph_.find(start) == graph_.end() || graph_[start].empty()`
(Avoidance.cpp, line 200), for graphs whose keys lie below `n`. -/
def has_start_edge (g : ℕ → ℕ → Option W) (n : ℕ) : Bool :=
  (List.range n).any fun j => (g START_INDEX j).isSome

/-- Embedding of `Avoidance::dijkstra` up to its `return false` points
(Avoidance.cpp, lines 180-230): initialize `distances` (0 at start, infinity
elsewhere) and `parents` (-1), fail when the start has no edges, else run the loop. -/
def dijkstraRun (g : ℕ → ℕ → Option W) (n : ℕ) : DOutcome W :=
  if has_start_edge g n then
    dijkstraLoop g n (n + 1) []
      (fun u => if u = START_INDEX then (0 : WithTop W) else ⊤) (fun _ => (-1 : ℤ)) START_INDEX
  else .failure

/-- The boolean returned by `Avoidance::dijkstra`. -/
def dijkstraSucceeds (g : ℕ → ℕ → Option W) (n : ℕ) : Bool :=
  match dijkstraRun g n with
  | .success _ _ _ => true
  | _ => false

/-- The final parent map on success. -/
def dijkstraParents (g : ℕ → ℕ → Option W) (n : ℕ) : Option (ℕ → ℤ) :=
  match dijkstraRun g n with
  | .success _ parent _ => some parent
  | _ => none

/-- The backtracking loop of Avoidance.cpp, lines 234-238: walk `current` through
the parent map, prepending each visited index, until `current` is `-1` or the
start; fuel-limited (the code's loop would diverge on a cyclic parent map, which
never occurs in reachable states). -/
def backtrackAux (parent : ℕ → ℤ) : ℕ → ℤ → List ℕ → Option (List ℕ)
  | 0, _, _ => none
  | fuel + 1, current, acc =>
    if current = -1 ∨ current = (START_INDEX : ℤ) then some acc
    else backtrackAux parent fuel (parent current.toNat) (current.toNat :: acc)

/-- The index sequence of the stored `path_` deque after a successful `dijkstra`
(Avoidance.cpp, lines 234-239): the backtracked chain from `parents[finish]`,
preceded by the start index.  Note the finish index itself is never appended. -/
def storedPathIdx (parent : ℕ → ℤ) (n : ℕ) : Option (List ℕ) :=
  (backtrackAux parent n (parent FINISH_INDEX) []).map fun acc => START_INDEX :: acc

/-- The stored path indices computed by a full `dijkstra` call. -/
def dijkstraStoredIdx (g : ℕ → ℕ → Option W) (n : ℕ) : Option (List ℕ) :=
  (dijkstraParents g n).bind fun parent => storedPathIdx parent n

/-- Embedding of `Avoidance::avoidance` (Avoidance.cpp, lines 42-94) as a function
from the previously stored path to the returned boolean and the newly stored path:
validate the finish pose against the table limits, run the obstacle validation loop
(possibly snapping the start pose), then build the graph and run Dijkstra.
`path_.clear()` (line 197) runs before the failure points inside `dijkstra`, so a
`dijkstra` failure leaves an empty stored path while a validation failure leaves
the previous path untouched.  `none` models divergence of the backtracking loop
(unreachable). -/
def avoidanceStep (sqrtFn : α → α) (lim : TableLimits α) (margin : α)
    (obstacles : List (Obstacle α)) (startP finishP : Coords α)
    (oldPath : List (Coords α)) : Option (Bool × List (Coords α)) :=
  if !(is_point_in_table_limits lim margin finishP) then some (false, oldPath)
  else
    match validate_poses obstacles startP finishP with
    | none => some (false, oldPath)
    | some startP' =>
      let pts := valid_points lim margin obstacles startP' finishP
      let g := build_avoidance_graph sqrtFn obstacles pts
      match dijkstraRun g pts.length with
      | .success _ parent _ =>
        (storedPathIdx parent pts.length).map fun idxs => (true, idxs.map (point_at pts))
      | .failure => some (false, [])
      | .fuelOut => none

/-! ### Paths in the adjacency map

Specification-side notions used to state shortest-path properties: a path is a
vertex list whose consecutive vertices are joined by edges of the graph. -/

/-- Weight of the edge `a → b`, infinite when absent. -/
def edge_weight (g : ℕ → ℕ → Option W) (a b : ℕ) : WithTop W :=
  match g a b with
  | some c => (c : WithTop W)
  | none => ⊤

/-- Total weight of a vertex list along the graph's edges. -/
def chain_weight (g : ℕ → ℕ → Option W) : List ℕ → WithTop W
  | a :: b :: rest => edge_weight g a b + chain_weight g (b :: rest)
  | _ => 0

/-- The list `p` is a path of `g` from `u` to `w`: nonempty, with endpoints `u`
and `w`, every consecutive pair joined by an edge. -/
def IsChainPath (g : ℕ → ℕ → Option W) (p : List ℕ) (u w : ℕ) : Prop :=
  p.head? = some u ∧ p.getLast? = some w ∧ List.Chain' (fun a b => (g a b).isSome = true) p

/-- The parent map realizes, below `u`, a chain of at most `k` hops of settled
vertices ending at the start: each hop is an edge whose head's distance is the
tail's distance plus the edge weight.  This is the certificate maintained for
every vertex of finite tentative distance. -/
def parent_steps (g : ℕ → ℕ → Option W) (settled : List ℕ) (dist : ℕ → WithTop W)
    (parent : ℕ → ℤ) : ℕ → ℕ → Prop
  | 0, u => u = START_INDEX
  | k + 1, u => u = START_INDEX ∨
      ∃ (w : ℕ) (c : W), parent u = (w : ℤ) ∧ w ∈ settled ∧ g w u = some c ∧
        dist u = dist w + (c : WithTop W) ∧ parent_steps g settled dist parent k w

/-- Invariant of the Dijkstra loop at the head of an iteration: `settled` is the
checked list, `v` the selected unchecked node of minimal finite distance. -/
structure DijkInv (g : ℕ → ℕ → Option W) (n : ℕ) (settled : List ℕ)
    (dist : ℕ → WithTop W) (parent : ℕ → ℤ) (v : ℕ) : Prop where
  nodup : settled.Nodup
  sub : ∀ u ∈ settled, u < n
  vlt : v < n
  vns : v ∉ settled
  fin_ns : FINISH_INDEX ∉ settled
  smem : 0 ∈ settled ∨ (settled = [] ∧ v = START_INDEX)
  d0 : dist START_INDEX = 0
  dnn : ∀ u, 0 ≤ dist u
  dfin : ∀ u ∈ settled, dist u ≠ ⊤
  dvfin : dist v ≠ ⊤
  dmin : ∀ u, u < n → u ∉ settled → dist v ≤ dist u
  dmono : ∀ u ∈ settled, dist u ≤ dist v
  fub : ∀ u w c, w ∈ settled → g w u = some c → dist u ≤ dist w + (c : WithTop W)
  pchain : ∀ u, dist u ≠ ⊤ → parent_steps g settled dist parent settled.length u

/-- Invariant of the Dijkstra loop after checking `v` and relaxing its
neighbors, before the next selection. -/
structure MidInv (g : ℕ → ℕ → Option W) (n : ℕ) (settled : List ℕ)
    (dist : ℕ → WithTop W) (parent : ℕ → ℤ) : Prop where
  nodup : settled.Nodup
  sub : ∀ u ∈ settled, u < n
  s0 : 0 ∈ settled
  fin_ns : FINISH_INDEX ∉ settled
  d0 : dist START_INDEX = 0
  dnn : ∀ u, 0 ≤ dist u
  dfin : ∀ u ∈ settled, dist u ≠ ⊤
  fub : ∀ u w c, w ∈ settled → g w u = some c → dist u ≤ dist w + (c : WithTop W)
  pchain : ∀ u, dist u ≠ ⊤ → parent_steps g settled dist parent settled.length u

/-! ### LidarDataConverter (LidarDataConverter.cpp, lines 63-131)

The trigonometric functions and `π` are passed explicitly (`Real.cos`, `Real.sin`,
`Real.pi` at `ℝ`); the scalar type needs a field structure for `DEG2RAD`. -/

section LidarConverter

variable {β : Type} [LinearOrderedField β]

/-- The per-point transform of `LidarDataConverter::convert` (lines 87-109):
polar to Cartesian in the lidar frame, translation by the lidar offset, rotation
by the robot angle and translation by the robot position.  Angles are in degrees,
converted by `DEG2RAD(a) = a * π / 180`. -/
def lidar_convert_point (cosF sinF : β → β) (piv : β)
    (poseX poseY poseAngle offX offY angle distance : β) : β × β :=
  let angleRad := angle * piv / 180
  let lidarRelX := distance * cosF angleRad
  let lidarRelY := distance * sinF angleRad
  let robotRelX := lidarRelX + offX
  let robotRelY := lidarRelY + offY
  let robotAngleRad := poseAngle * piv / 180
  (poseX + (robotRelX * cosF robotAngleRad - robotRelY * sinF robotAngleRad),
   poseY + (robotRelX * sinF robotAngleRad + robotRelY * cosF robotAngleRad))

/-- The scan loop of `LidarDataConverter::convert` (lines 83-122): process rows
until the first one whose first coordinate is negative (the input sentinel),
transform each row (angle, distance, intensity; the intensity is unused) and keep
the transformed point exactly when it is strictly inside the table limits shrunk
by the margin (lines 112-116), preserving order. -/
def lidar_convert (cosF sinF : β → β) (piv : β) (lim : TableLimits β) (margin : β)
    (poseX poseY poseAngle offX offY : β) (rows : List (β × β × β)) : List (β × β) :=
  (rows.takeWhile fun r => !decide (r.1 < 0)).filterMap fun r =>
    let gp := lidar_convert_point cosF sinF piv poseX poseY poseAngle offX offY r.1 r.2.1
    if (lim.xMin + margin < gp.1 ∧ gp.1 < lim.xMax - margin) ∧
       (lim.yMin + margin < gp.2 ∧ gp.2 < lim.yMax - margin)
    then some gp else none

/-- The published `lidar_coords` buffer: the kept points in order, terminated by
the sentinel row whose coordinates are `-1` (lines 123-125). -/
def lidar_published (cosF sinF : β → β) (piv : β) (lim : TableLimits β) (margin : β)
    (poseX poseY poseAngle offX offY : β) (rows : List (β × β × β)) : List (β × β) :=
  lidar_convert cosF sinF piv lim margin poseX poseY poseAngle offX offY rows ++ [(-1, -1)]

end LidarConverter

/-! ### LD19 scan assembler (ldlidar_driver.cpp, lines 252-309)

`PointData` fields: `angle` (float, degrees), `distance` (uint16), `intensity`
(uint8), `stamp` (uint64).  `getSpeed()` returns `speed_ / 360.0` (spin speed in
Hz).  The floating-point constants `1.4` and `2` are modelled exactly in `ℚ`. -/

/-- A decoded lidar measurement point (`PointData`). -/
structure LidarPoint where
  angle : ℚ
  distance : ℕ
  intensity : ℕ
  stamp : ℕ
deriving DecidableEq, Repr

/-- Insertion into a stamp-sorted list. -/
def insert_by_stamp (p : LidarPoint) : List LidarPoint → List LidarPoint
  | [] => [p]
  | q :: rest => if p.stamp < q.stamp then p :: q :: rest else q :: insert_by_stamp p rest

/-- Model of `std::sort` with comparator `a.stamp < b.stamp` (line 279). -/
def sort_by_stamp : List LidarPoint → List LidarPoint
  | [] => []
  | p :: rest => insert_by_stamp p (sort_by_stamp rest)

/-- The scan loop of `LDLidarDriver::assemblePacket` (lines 262-306) over the
remaining points, carrying `last_angle` and `count`.  `tmp` is the full
`tmp_lidar_scan_data_vec_`.  Result: the returned boolean, the published scan
(if any), and the vector contents after the call. -/
def assembleLoop (speed mf : ℚ) (tmp : List LidarPoint) :
    List LidarPoint → ℚ → ℕ → Bool × Option (List LidarPoint) × List LidarPoint
  | [], _, _ => (false, none, tmp)
  | n :: rest, lastAngle, count =>
    if n.angle < 20 ∧ lastAngle > 340 then
      if (count : ℚ) * (speed / 360) > mf * (14 / 10) then
        (false, none, tmp.drop count)
      else
        let data := sort_by_stamp (tmp.take count)
        if 0 < data.length then (true, some data, tmp.drop count)
        else
          if ((count + 1 : ℕ) : ℚ) * (speed / 360) > mf * 2 then
            (false, none, tmp.drop (count + 1))
          else assembleLoop speed mf tmp rest n.angle (count + 1)
    else
      if ((count + 1 : ℕ) : ℚ) * (speed / 360) > mf * 2 then
        (false, none, tmp.drop (count + 1))
      else assembleLoop speed mf tmp rest n.angle (count + 1)

/-- Embedding of `LDLidarDriver::assemblePacket` (lines 252-309): clear everything
when the speed is not positive, else scan for a full-circle boundary. -/
def assemblePacket (speed mf : ℚ) (tmp : List LidarPoint) :
    Bool × Option (List LidarPoint) × List LidarPoint :=
  if speed ≤ 0 then (false, none, []) else assembleLoop speed mf tmp tmp 0 0

/-! ### WritePriorityLock (WritePriorityLock.cpp, lines 188-239)

Transition-system embedding.  Each `sem_wait(sem_mutex_) ... sem_post(sem_mutex_)`
region is one atomic transition (the mutex serializes them), except in
`startReading`, where the first reader blocks on `sem_write_lock_` *while holding
the mutex* (lines 196-200): this is split into two transitions with `mutexFree`
false in between, disabling every other mutex region.  The reader spin loop
(lines 191-195) leaves the state unchanged, so it needs no transition: a reader
simply cannot take its admission transition while `write_request_count > 0`. -/

/-- Writer control locations: `idle` (before `startWriting`), `waitLock` (after
the `write_request_count` increment, blocked on `sem_write_lock_`, line 226),
`writing` (holding the write lock), `postLock` (after the decrement in
`finishWriting`, before `sem_post(sem_write_lock_)`, line 237). -/
inductive WriterPc where
  | idle
  | waitLock
  | writing
  | postLock
deriving DecidableEq, Repr

/-- Reader control locations: `idle`, `lockPending` (first reader holding the
mutex, blocked on `sem_write_lock_`, line 199), `reading`. -/
inductive ReaderPc where
  | idle
  | lockPending
  | reading
deriving DecidableEq, Repr

/-- Shared state of one `WritePriorityLock`: program counters of the writer
threads (`ι`) and reader threads (`ρ`), the two shared counters, the
`sem_write_lock_` semaphore value and whether `sem_mutex_` is free. -/
structure LockState (ι ρ : Type) where
  wpc : ι → WriterPc
  rpc : ρ → ReaderPc
  write_request_count : ℕ
  reader_count : ℕ
  write_lock : ℕ
  mutexFree : Bool

/-- Initial state after `reset()` (lines 269-281): counters zero, write lock
free (value 1), mutex free. -/
def initLockState (ι ρ : Type) : LockState ι ρ :=
  ⟨fun _ => .idle, fun _ => .idle, 0, 0, 1, true⟩

variable {ι ρ : Type} [DecidableEq ι] [DecidableEq ρ]

/-- One atomic transition of the lock protocol. -/
inductive LockStep : LockState ι ρ → LockState ι ρ → Prop where
  | rStartFirst (s : LockState ι ρ) (j : ρ) :
      s.rpc j = .idle → s.mutexFree = true → s.write_request_count = 0 →
      s.reader_count = 0 →
      LockStep s { s with rpc := Function.update s.rpc j .lockPending,
                          reader_count := 1, mutexFree := false }
  | rStartMore (s : LockState ι ρ) (j : ρ) :
      s.rpc j = .idle → s.mutexFree = true → s.write_request_count = 0 →
      0 < s.reader_count →
      LockStep s { s with rpc := Function.update s.rpc j .reading,
                          reader_count := s.reader_count + 1 }
  | rAcquireLock (s : LockState ι ρ) (j : ρ) :
      s.rpc j = .lockPending → 0 < s.write_lock →
      LockStep s { s with rpc := Function.update s.rpc j .reading,
                          write_lock := s.write_lock - 1, mutexFree := true }
  | rFinish (s : LockState ι ρ) (j : ρ) :
      s.rpc j = .reading → s.mutexFree = true →
      LockStep s { s with rpc := Function.update s.rpc j .idle,
                          reader_count := s.reader_count - 1,
                          write_lock := if s.reader_count - 1 = 0
                                        then s.write_lock + 1 else s.write_lock }
  | wStartRequest (s : LockState ι ρ) (i : ι) :
      s.wpc i = .idle → s.mutexFree = true →
      LockStep s { s with wpc := Function.update s.wpc i .waitLock,
                          write_request_count := s.write_request_count + 1 }
  | wAcquireLock (s : LockState ι ρ) (i : ι) :
      s.wpc i = .waitLock → 0 < s.write_lock →
      LockStep s { s with wpc := Function.update s.wpc i .writing,
                          write_lock := s.write_lock - 1 }
  | wFinishDec (s : LockState ι ρ) (i : ι) :
      s.wpc i = .writing → s.mutexFree = true →
      LockStep s { s with wpc := Function.update s.wpc i .postLock,
                          write_request_count := s.write_request_count - 1 }
  | wRelease (s : LockState ι ρ) (i : ι) :
      s.wpc i = .postLock →
      LockStep s { s with wpc := Function.update s.wpc i .idle,
                          write_lock := s.write_lock + 1 }

/-- Reachability from the initial state. -/
def LockReachable (s : LockState ι ρ) : Prop :=
  Relation.ReflTransGen LockStep (initLockState ι ρ) s

/-- A writer is pending: it sits between its `write_request_count` increment in
`startWriting` and the matching decrement in `finishWriting`. -/
def writerPending : WriterPc → Bool
  | .waitLock => true
  | .writing => true
  | _ => false

/-- Number of writer threads currently between their `write_request_count`
increment and the matching decrement. -/
def pendingWriterCount {ι ρ : Type} [DecidableEq ι] [Fintype ι]
    (s : LockState ι ρ) : ℕ :=
  (Finset.univ.filter fun i => writerPending (s.wpc i) = true).card

/-! ### Auxiliary definitions used by the statements below -/

/-- No full-circle transition occurs along `l` when the previous angle is
`lastA`: the assembler's wrap test (line 264) fails at every element. -/
def nowrapFrom (lastA : ℚ) : List LidarPoint → Prop
  | [] => True
  | p :: rest => ¬(p.angle < 20 ∧ lastA > 340) ∧ nowrapFrom p.angle rest

/-- Modelled from the spec's words (claim C6), for comparison with the code:
points are kept when the global coordinate does not fall outside the closed
interval from `table_min + margin` to `table_max - margin` on either axis. -/
def lidar_convert_claim {β : Type} [LinearOrderedField β] (cosF sinF : β → β)
    (piv : β) (lim : TableLimits β) (margin : β)
    (poseX poseY poseAngle offX offY : β) (rows : List (β × β × β)) : List (β × β) :=
  (rows.takeWhile fun r => !decide (r.1 < 0)).filterMap fun r =>
    let gp := lidar_convert_point cosF sinF piv poseX poseY poseAngle offX offY r.1 r.2.1
    if (lim.xMin + margin ≤ gp.1 ∧ gp.1 ≤ lim.xMax - margin) ∧
       (lim.yMin + margin ≤ gp.2 ∧ gp.2 ≤ lim.yMax - margin)
    then some gp else none

/-- The global-coordinate formula as worded in claim C6:
`global = pose_position + R(pose_angle) · ((distance·cos(angle), distance·sin(angle)) + lidar_offset)`,
with `R` the rotation matrix and angles converted by `DEG2RAD`. -/
def claim_global_point {β : Type} [LinearOrderedField β] (cosF sinF : β → β)
    (piv poseX poseY poseAngle offX offY angle distance : β) : β × β :=
  (poseX + ((distance * cosF (angle * piv / 180) + offX) * cosF (poseAngle * piv / 180)
            - (distance * sinF (angle * piv / 180) + offY) * sinF (poseAngle * piv / 180)),
   poseY + ((distance * cosF (angle * piv / 180) + offX) * sinF (poseAngle * piv / 180)
            + (distance * sinF (angle * piv / 180) + offY) * cosF (poseAngle * piv / 180)))

/-- A two-node graph with the single symmetric edge `0 ↔ 1` of weight 5: the
graph built for a free straight run from start to finish. -/
def directGraph : ℕ → ℕ → Option ℤ := fun i j =>
  if (i = 0 ∧ j = 1) ∨ (i = 1 ∧ j = 0) then some 5 else none

/-- The square graph of spec testable property 5: corners 0 (start) and 1
(finish) opposite, free corners 2 and 3, both diagonals blocked, all four sides
of weight 100. -/
def squareGraph : ℕ → ℕ → Option ℤ := fun i j =>
  if (i = 0 ∧ j = 2) ∨ (i = 2 ∧ j = 0) ∨ (i = 0 ∧ j = 3) ∨ (i = 3 ∧ j = 0) ∨
     (i = 1 ∧ j = 2) ∨ (i = 2 ∧ j = 1) ∨ (i = 1 ∧ j = 3) ∨ (i = 3 ∧ j = 1)
  then some 100 else none

/-! ## Supporting lemmas -/

lemma list_filterMap_ite_eq_filter_map {γ δ : Type} (l : List γ) (p : γ → Prop)
    [DecidablePred p] (f : γ → δ) :
    (l.filterMap fun r => if p r then some (f r) else none)
      = (l.filter fun r => decide (p r)).map f := by
  induction l with
  | nil => rfl
  | cons a l ih =>
    by_cases ha : p a
    · simp [List.filterMap_cons, List.filter_cons, ha, ih]
    · simp [List.filterMap_cons, List.filter_cons, ha, ih]

section AvoidanceLemmas

variable {α : Type} [LinearOrderedCommRing α]

lemma validate_poses_eq_foldl (obstacles : List (Obstacle α))
    (startP finishP s' : Coords α)
    (h : validate_poses obstacles startP finishP = some s') :
    s' = obstacles.foldl snap_step startP := by
  induction obstacles generalizing startP with
  | nil =>
    simp only [validate_poses, Option.some.injEq] at h
    simpa [List.foldl_nil] using h.symm
  | cons o rest ih =>
    by_cases hf : o.is_point_inside finishP
    · simp [validate_poses, hf] at h
    · simp only [validate_poses, hf, Bool.false_eq_true, if_false] at h
      simpa [List.foldl_cons, snap_step] using ih _ h

lemma validate_poses_none_of_finish_inside (obstacles : List (Obstacle α))
    (startP finishP : Coords α)
    (h : ∃ o ∈ obstacles, o.is_point_inside finishP = true) :
    validate_poses obstacles startP finishP = none := by
  induction obstacles generalizing startP with
  | nil => simp at h
  | cons o rest ih =>
    by_cases hf : o.is_point_inside finishP
    · simp [validate_poses, hf]
    · rcases h with ⟨o', ho', hin⟩
      rcases List.mem_cons.mp ho' with rfl | hmem
      · exact absurd hin hf
      · simp only [validate_poses, hf, Bool.false_eq_true, if_false]
        exact ih _ ⟨o', hmem, hin⟩

end AvoidanceLemmas

/-! ## Claim theorems -/

section AvoidanceClaims

variable {α : Type} [LinearOrderedCommRing α]

/-- C4: for every call to `avoidance(start, finish)`, if the finish pose lies
outside the world borders (table limits shrunk by the margin) the call returns
false; and the start pose used for planning (the head of the valid-point list the
graph is built on) is the start pose snapped through every obstacle that contains
it, each replacement being that obstacle's nearest boundary point — in particular,
with a single registered obstacle containing the start, the planning start is
exactly that obstacle's nearest boundary point. -/
theorem claimC4 (sqrtFn : α → α) (lim : TableLimits α) (margin : α)
    (obstacles : List (Obstacle α)) (startP finishP : Coords α)
    (oldPath : List (Coords α)) :
    (is_point_in_table_limits lim margin finishP = false →
      avoidanceStep sqrtFn lim margin obstacles startP finishP oldPath
        = some (false, oldPath)) ∧
    (∀ s', validate_poses obstacles startP finishP = some s' →
      s' = obstacles.foldl snap_step startP ∧
      (valid_points lim margin obstacles s' finishP).head? = some s') ∧
    (∀ o : Obstacle α, o.is_point_inside startP = true →
      o.is_point_inside finishP = false →
      validate_poses [o] startP finishP = some (o.nearest_point startP)) := by
  refine ⟨fun hf => ?_, fun s' hs' => ?_, fun o hs hf => ?_⟩
  · simp [avoidanceStep, hf]
  · exact ⟨validate_poses_eq_foldl _ _ _ _ hs', rfl⟩
  · simp [validate_poses, hf, hs]

/-- Witness for C4 at a concrete instance over `ℤ`. -/
theorem claimC4_witness :
    (is_point_in_table_limits (⟨0, 100, 0, 100⟩ : TableLimits ℤ) 1 ⟨200, 50⟩ = false ∧
      avoidanceStep (fun x => x) (⟨0, 100, 0, 100⟩ : TableLimits ℤ) 1 [] ⟨10, 10⟩ ⟨200, 50⟩
        [⟨7, 8⟩] = some (false, [⟨7, 8⟩])) ∧
    ((⟨fun p => decide (p.x = 50), fun _ _ => false, fun _ => ⟨60, 60⟩, ⟨50, 50⟩, []⟩ :
        Obstacle ℤ).is_point_inside ⟨50, 50⟩ = true ∧
      validate_poses [⟨fun p => decide (p.x = 50), fun _ _ => false, fun _ => ⟨60, 60⟩,
        ⟨50, 50⟩, []⟩] (⟨50, 50⟩ : Coords ℤ) ⟨90, 90⟩
        = some ((⟨fun p => decide (p.x = 50), fun _ _ => false, fun _ => ⟨60, 60⟩,
            ⟨50, 50⟩, []⟩ : Obstacle ℤ).nearest_point ⟨50, 50⟩)) :=
  ⟨⟨by decide, (claimC4 (fun x => x) ⟨0, 100, 0, 100⟩ 1 [] ⟨10, 10⟩ ⟨200, 50⟩ [⟨7, 8⟩]).1
      (by decide)⟩,
   ⟨by decide, (claimC4 (fun x => x) ⟨0, 100, 0, 100⟩ 1 [] ⟨50, 50⟩ ⟨90, 90⟩ []).2.2
      ⟨fun p => decide (p.x = 50), fun _ _ => false, fun _ => ⟨60, 60⟩, ⟨50, 50⟩, []⟩
      (by decide) (by decide)⟩⟩

/-- C9: `avoidance(start, finish)` returns false whenever the finish pose lies
inside any registered dynamic obstacle; the failure occurs during validation,
before the graph is built or Dijkstra runs, so the previously stored path is
also left untouched. -/
theorem claimC9 (sqrtFn : α → α) (lim : TableLimits α) (margin : α)
    (obstacles : List (Obstacle α)) (startP finishP : Coords α)
    (oldPath : List (Coords α))
    (h : ∃ o ∈ obstacles, o.is_point_inside finishP = true) :
    avoidanceStep sqrtFn lim margin obstacles startP finishP oldPath
      = some (false, oldPath) := by
  by_cases hb : is_point_in_table_limits lim margin finishP
  · simp [avoidanceStep, hb, validate_poses_none_of_finish_inside _ _ _ h]
  · simp [avoidanceStep, Bool.not_eq_true _ ▸ hb]

/-- Witness for C9 at a concrete instance over `ℤ`. -/
theorem claimC9_witness :
    (∃ o ∈ [(⟨fun p => decide (p.x = 90), fun _ _ => false, id, ⟨90, 90⟩, []⟩ : Obstacle ℤ)],
      o.is_point_inside ⟨90, 90⟩ = true) ∧
    avoidanceStep (fun x => x) (⟨0, 100, 0, 100⟩ : TableLimits ℤ) 1
      [⟨fun p => decide (p.x = 90), fun _ _ => false, id, ⟨90, 90⟩, []⟩]
      ⟨10, 10⟩ ⟨90, 90⟩ [⟨7, 8⟩] = some (false, [⟨7, 8⟩]) :=
  ⟨⟨_, List.mem_singleton.mpr rfl, by decide⟩,
   claimC9 (fun x => x) ⟨0, 100, 0, 100⟩ 1 _ ⟨10, 10⟩ ⟨90, 90⟩ [⟨7, 8⟩]
     ⟨_, List.mem_singleton.mpr rfl, by decide⟩⟩

/-- C10: failure atomicity of `avoidance()` is stage-dependent.  A validation
failure (finish outside the borders, or finish inside an obstacle) returns false
with the previously stored path unchanged; a failure inside `dijkstra` (which
clears `path_` before its failure returns) leaves the stored path empty. -/
theorem claimC10 (sqrtFn : α → α) (lim : TableLimits α) (margin : α)
    (obstacles : List (Obstacle α)) (startP finishP : Coords α)
    (oldPath : List (Coords α)) :
    ((is_point_in_table_limits lim margin finishP = false ∨
        validate_poses obstacles startP finishP = none) →
      avoidanceStep sqrtFn lim margin obstacles startP finishP oldPath
        = some (false, oldPath)) ∧
    (∀ s', validate_poses obstacles startP finishP = some s' →
      is_point_in_table_limits lim margin finishP = true →
      dijkstraRun
        (build_avoidance_graph sqrtFn obstacles (valid_points lim margin obstacles s' finishP))
        (valid_points lim margin obstacles s' finishP).length = .failure →
      avoidanceStep sqrtFn lim margin obstacles startP finishP oldPath
        = some (false, [])) := by
  constructor
  · rintro (hf | hv)
    · simp [avoidanceStep, hf]
    · by_cases hb : is_point_in_table_limits lim margin finishP
      · simp [avoidanceStep, hb, hv]
      · simp [avoidanceStep, Bool.not_eq_true _ ▸ hb]
  · intro s' hs' hb hd
    simp [avoidanceStep, hb, hs', hd]

/-- Witness for C10 at concrete instances over `ℤ`: a validation failure keeps
the old path, a Dijkstra failure (here: every segment blocked by an obstacle, so
the start node has no edges) empties it. -/
theorem claimC10_witness :
    avoidanceStep (fun x => x) (⟨0, 100, 0, 100⟩ : TableLimits ℤ) 1 [] ⟨10, 10⟩ ⟨200, 50⟩
      [⟨7, 8⟩] = some (false, [⟨7, 8⟩]) ∧
    avoidanceStep (fun x => x) (⟨0, 100, 0, 100⟩ : TableLimits ℤ) 1
      [⟨fun _ => false, fun _ _ => true, id, ⟨1000, 1000⟩, []⟩]
      ⟨10, 10⟩ ⟨90, 90⟩ [⟨7, 8⟩] = some (false, []) :=
  ⟨(claimC10 (fun x => x) ⟨0, 100, 0, 100⟩ 1 [] ⟨10, 10⟩ ⟨200, 50⟩ [⟨7, 8⟩]).1
     (Or.inl (by decide)),
   (claimC10 (fun x => x) ⟨0, 100, 0, 100⟩ 1
       [⟨fun _ => false, fun _ _ => true, id, ⟨1000, 1000⟩, []⟩] ⟨10, 10⟩ ⟨90, 90⟩
       [⟨7, 8⟩]).2 ⟨10, 10⟩ (by decide) (by decide) (by rfl)⟩

/-- C1 (code evaluation at the failing input): on the two-point graph with the
single direct edge `start ↔ finish`, `dijkstra` succeeds but the stored path is
`[start]` alone — its last entry is the start, not the finish, contradicting the
claim (and the header documentation of `get_path_size`, which says the path
includes start and finish). -/
theorem claimC1 :
    dijkstraSucceeds directGraph 2 = true ∧
    dijkstraStoredIdx directGraph 2 = some [START_INDEX] ∧
    [START_INDEX].getLast? ≠ some FINISH_INDEX := by
  refine ⟨by decide, by decide, by decide⟩

end AvoidanceClaims

section ConverterClaims

variable {β : Type} [LinearOrderedField β]

/-- C6 (amended: the bounds test is strict, so points exactly on the shrunk
boundary are also dropped): for every completed scan, `convert` publishes exactly
those transformed points — `global = pose_position + R(pose_angle) ·
((distance·cos angle, distance·sin angle) + lidar_offset)` — that lie strictly
inside the open interval between `table_min + margin` and `table_max - margin` on
both axes, in input order, and the published buffer is terminated by a row whose
first coordinate is `-1`. -/
theorem claimC6 (cosF sinF : β → β) (piv : β) (lim : TableLimits β) (margin : β)
    (poseX poseY poseAngle offX offY : β) (rows : List (β × β × β)) :
    lidar_convert cosF sinF piv lim margin poseX poseY poseAngle offX offY rows
      = ((rows.takeWhile fun r => !decide (r.1 < 0)).filter fun r =>
          decide ((lim.xMin + margin
                < (claim_global_point cosF sinF piv poseX poseY poseAngle offX offY r.1 r.2.1).1 ∧
              (claim_global_point cosF sinF piv poseX poseY poseAngle offX offY r.1 r.2.1).1
                < lim.xMax - margin) ∧
            (lim.yMin + margin
                < (claim_global_point cosF sinF piv poseX poseY poseAngle offX offY r.1 r.2.1).2 ∧
              (claim_global_point cosF sinF piv poseX poseY poseAngle offX offY r.1 r.2.1).2
                < lim.yMax - margin))).map
          (fun r => claim_global_point cosF sinF piv poseX poseY poseAngle offX offY r.1 r.2.1) ∧
    lidar_published cosF sinF piv lim margin poseX poseY poseAngle offX offY rows
      = lidar_convert cosF sinF piv lim margin poseX poseY poseAngle offX offY rows
          ++ [(-1, -1)] ∧
    (lidar_published cosF sinF piv lim margin poseX poseY poseAngle offX offY rows).getLast?
      = some (-1, -1) := by
  have hpt : ∀ a d : β,
      lidar_convert_point cosF sinF piv poseX poseY poseAngle offX offY a d
        = claim_global_point cosF sinF piv poseX poseY poseAngle offX offY a d := by
    intro a d
    rfl
  refine ⟨?_, rfl, by simp [lidar_published]⟩
  unfold lidar_convert
  simp only [hpt]
  exact list_filterMap_ite_eq_filter_map _ _ _

/-- Counterexample to C6 as stated (closed-interval reading): a point whose
global coordinate lands exactly on `table_min + margin` on the x axis is dropped
by the code, while the claim's closed-interval filter keeps it. -/
theorem claimC6_cex :
    lidar_convert (fun _ => (1 : ℚ)) (fun _ => 0) 0 ⟨0, 100, 0, 100⟩ 0 0 0 0 0 0
        [(0, 0, 0)] = [] ∧
    lidar_convert_claim (fun _ => (1 : ℚ)) (fun _ => 0) 0 ⟨0, 100, 0, 100⟩ 0 0 0 0 0 0
        [(0, 0, 0)] = [(0, 0)] := by
  constructor
  · simp [lidar_convert, lidar_convert_point]
  · norm_num [lidar_convert_claim, lidar_convert_point, List.filterMap_cons]

end ConverterClaims

section AssemblerClaims

lemma length_insert_by_stamp (p : LidarPoint) (l : List LidarPoint) :
    (insert_by_stamp p l).length = l.length + 1 := by
  induction l with
  | nil => rfl
  | cons q rest ih =>
    by_cases h : p.stamp < q.stamp
    · simp [insert_by_stamp, h]
    · simp [insert_by_stamp, h, ih]

lemma length_sort_by_stamp (l : List LidarPoint) :
    (sort_by_stamp l).length = l.length := by
  induction l with
  | nil => rfl
  | cons p rest ih => simp [sort_by_stamp, length_insert_by_stamp, ih]

lemma assembleLoop_skip (speed mf : ℚ) (tmp : List LidarPoint) :
    ∀ (l rest' : List LidarPoint) (lastA : ℚ) (count : ℕ),
      nowrapFrom lastA l →
      (∀ j : ℕ, 1 ≤ j → j ≤ l.length →
        ¬(((count + j : ℕ) : ℚ) * (speed / 360) > mf * 2)) →
      assembleLoop speed mf tmp (l ++ rest') lastA count
        = assembleLoop speed mf tmp rest'
            ((l.map LidarPoint.angle).getLastD lastA) (count + l.length) := by
  intro l
  induction l with
  | nil => intro rest' lastA count _ _; simp
  | cons x xs ih =>
    intro rest' lastA count hchain h2x
    have hx : ¬(x.angle < 20 ∧ lastA > 340) := hchain.1
    have h1 : ¬(((count + 1 : ℕ) : ℚ) * (speed / 360) > mf * 2) := by
      simpa using h2x 1 le_rfl (by simp)
    have h2x' : ∀ j : ℕ, 1 ≤ j → j ≤ xs.length →
        ¬(((count + 1 + j : ℕ) : ℚ) * (speed / 360) > mf * 2) := by
      intro j hj1 hj2
      have hmem := h2x (j + 1) (by omega) (by simp; omega)
      have heq : count + 1 + j = count + (j + 1) := by omega
      rw [heq]
      exact hmem
    have step1 : assembleLoop speed mf tmp ((x :: xs) ++ rest') lastA count
        = assembleLoop speed mf tmp (xs ++ rest') x.angle (count + 1) := by
      simp only [List.cons_append, assembleLoop]
      rw [if_neg hx, if_neg h1]
      rfl
    have hangle : (xs.map LidarPoint.angle).getLastD x.angle
        = ((x :: xs).map LidarPoint.angle).getLastD lastA := by
      cases xs <;> simp [List.getLastD_eq_getLast?, List.getLast?]
    have hcount : count + 1 + xs.length = count + (x :: xs).length := by
      simp only [List.length_cons]
      omega
    rw [step1, ih rest' x.angle (count + 1) hchain.2 h2x', hangle, hcount]

lemma assemble_first_wrap (speed mf : ℚ) (pre : List LidarPoint) (plast nPt : LidarPoint)
    (rest : List LidarPoint) (hspeed : 0 < speed)
    (hn : nPt.angle < 20) (hl : plast.angle > 340)
    (hnowrap : nowrapFrom 0 (pre ++ [plast]))
    (h2x : ∀ j : ℕ, 1 ≤ j → j ≤ pre.length + 1 →
      ¬((j : ℚ) * (speed / 360) > mf * 2)) :
    assemblePacket speed mf (pre ++ plast :: nPt :: rest)
      = if ((pre.length + 1 : ℕ) : ℚ) * (speed / 360) > mf * (14 / 10)
        then (false, none, nPt :: rest)
        else (true, some (sort_by_stamp (pre ++ [plast])), nPt :: rest) := by
  have hne : ¬ speed ≤ 0 := not_le.mpr hspeed
  have hsplit : pre ++ plast :: nPt :: rest = (pre ++ [plast]) ++ nPt :: rest := by simp
  have hlen : (pre ++ [plast]).length = pre.length + 1 := by simp
  have h2x' : ∀ j : ℕ, 1 ≤ j → j ≤ (pre ++ [plast]).length →
      ¬(((0 + j : ℕ) : ℚ) * (speed / 360) > mf * 2) := by
    intro j h1 h2
    rw [hlen] at h2
    simpa using h2x j h1 h2
  have hangle : ((pre ++ [plast]).map LidarPoint.angle).getLastD 0 = plast.angle := by
    rw [List.map_append]
    exact List.getLastD_concat _ _ _
  have htake : ((pre ++ [plast]) ++ nPt :: rest).take (pre.length + 1) = pre ++ [plast] :=
    List.take_left' hlen
  have hdrop : ((pre ++ [plast]) ++ nPt :: rest).drop (pre.length + 1) = nPt :: rest :=
    List.drop_left' hlen
  have hdata : 0 < (sort_by_stamp (pre ++ [plast])).length := by
    rw [length_sort_by_stamp]
    simp
  unfold assemblePacket
  rw [if_neg hne, hsplit,
    assembleLoop_skip speed mf ((pre ++ [plast]) ++ nPt :: rest) (pre ++ [plast])
      (nPt :: rest) 0 0 hnowrap h2x', hangle]
  simp only [Nat.zero_add, hlen, assembleLoop]
  rw [if_pos ⟨hn, hl⟩, htake, hdrop]
  split_ifs with h1
  · rfl
  · rfl

/-- C7 (amended: the rejection test multiplies the accumulated point count by the
spin speed in Hz, `getSpeed() = speed / 360`): when the decoded sequence first
transitions from an angle above 340° to one below 20°, the accumulated prefix is
dropped without publishing iff `count * (speed / 360) > measure_frequency * 1.4`;
otherwise it is sorted by timestamp and published as one completed scan, and in
both cases the prefix is removed from the accumulation vector. -/
theorem claimC7 (speed mf : ℚ) (pre : List LidarPoint) (plast nPt : LidarPoint)
    (rest : List LidarPoint) (hspeed : 0 < speed)
    (hn : nPt.angle < 20) (hl : plast.angle > 340)
    (hnowrap : nowrapFrom 0 (pre ++ [plast]))
    (h2x : ∀ j : ℕ, 1 ≤ j → j ≤ pre.length + 1 →
      ¬((j : ℚ) * (speed / 360) > mf * 2)) :
    assemblePacket speed mf (pre ++ plast :: nPt :: rest)
      = if ((pre.length + 1 : ℕ) : ℚ) * (speed / 360) > mf * (14 / 10)
        then (false, none, nPt :: rest)
        else (true, some (sort_by_stamp (pre ++ [plast])), nPt :: rest) :=
  assemble_first_wrap speed mf pre plast nPt rest hspeed hn hl hnowrap h2x

/-- Witness for C7 at a concrete instance: one accumulated point, spin speed
360 (1 Hz), measure frequency 4500. -/
theorem claimC7_witness :
    assemblePacket 360 4500 ([] ++ (⟨350, 5, 200, 11⟩ : LidarPoint) ::
        (⟨10, 5, 200, 12⟩ : LidarPoint) :: [])
      = if ((List.length ([] : List LidarPoint) + 1 : ℕ) : ℚ) * (360 / 360) > 4500 * (14 / 10)
        then (false, none, [⟨10, 5, 200, 12⟩])
        else (true, some (sort_by_stamp ([] ++ [⟨350, 5, 200, 11⟩])), [⟨10, 5, 200, 12⟩]) :=
  claimC7 360 4500 [] ⟨350, 5, 200, 11⟩ ⟨10, 5, 200, 12⟩ [] (by norm_num)
    (by norm_num) (by norm_num)
    (by norm_num [nowrapFrom, List.nil_append])
    (by intro j h1 h2
        simp only [List.length_nil] at h2
        have hj : j = 1 := by omega
        subst hj
        norm_num)

/-- Counterexample to C7 as stated: with spin speed 1000 Hz (`speed_ = 360000`)
and 7 accumulated points at the wrap, the code rejects the prefix
(`7 * 1000 > 4500 * 1.4`), although the accumulated count 7 does not exceed
`measure_frequency * 1.4 = 6300`, so the claim's test says it should have been
published. -/
theorem claimC7_cex :
    assemblePacket 360000 4500
        ([⟨350, 5, 200, 3⟩, ⟨350, 5, 200, 3⟩, ⟨350, 5, 200, 3⟩, ⟨350, 5, 200, 3⟩,
          ⟨350, 5, 200, 3⟩, ⟨350, 5, 200, 3⟩] ++ ⟨350, 5, 200, 3⟩ :: ⟨10, 5, 200, 4⟩ :: [])
      = (false, none, [⟨10, 5, 200, 4⟩]) ∧
    ¬((7 : ℚ) > 4500 * (14 / 10)) := by
  constructor
  · rw [assemble_first_wrap 360000 4500
      [⟨350, 5, 200, 3⟩, ⟨350, 5, 200, 3⟩, ⟨350, 5, 200, 3⟩, ⟨350, 5, 200, 3⟩,
       ⟨350, 5, 200, 3⟩, ⟨350, 5, 200, 3⟩] ⟨350, 5, 200, 3⟩ ⟨10, 5, 200, 4⟩ []
      (by norm_num) (by norm_num) (by norm_num)
      (by norm_num [nowrapFrom, List.cons_append, List.nil_append])
      (by intro j h1 h2
          simp only [List.length_cons, List.length_nil] at h2
          interval_cases j <;> norm_num)]
    rw [if_pos (by norm_num)]
  · norm_num

end AssemblerClaims

section GraphClaims

variable {α : Type} [LinearOrderedCommRing α]

lemma mem_graph_pairs {n i j : ℕ} : (i, j) ∈ graph_pairs n ↔ i < j ∧ j < n := by
  simp only [graph_pairs, List.mem_flatMap, List.mem_map, List.mem_filter,
    List.mem_range, decide_eq_true_eq, Prod.mk.injEq]
  constructor
  · rintro ⟨a, ha, b, ⟨hb, hab⟩, rfl, rfl⟩
    exact ⟨hab, hb⟩
  · rintro ⟨hij, hj⟩
    exact ⟨i, lt_trans hij hj, j, ⟨hj, hij⟩, rfl, rfl⟩

lemma graph_pairs_fst_lt_snd {n : ℕ} {p : ℕ × ℕ} (hp : p ∈ graph_pairs n) :
    p.1 < p.2 ∧ p.2 < n := by
  obtain ⟨i, j⟩ := p
  exact mem_graph_pairs.mp hp

lemma build_fold_stable (sqrtFn : α → α) (obstacles : List (Obstacle α))
    (pts : List (Coords α)) (L : List (ℕ × ℕ)) :
    ∀ (g₀ : ℕ → ℕ → Option α) (a b : ℕ) (T : Option α),
      g₀ a b = T →
      (∀ p ∈ L,
        segment_collides obstacles (point_at pts p.1) (point_at pts p.2) = false →
        ((a = p.1 ∧ b = p.2) ∨ (a = p.2 ∧ b = p.1)) →
        some (calculate_distance sqrtFn (point_at pts p.1).x (point_at pts p.1).y
          (point_at pts p.2).x (point_at pts p.2).y) = T) →
      L.foldl (build_edge_step sqrtFn obstacles pts) g₀ a b = T := by
  induction L with
  | nil => intro g₀ a b T h0 _; simpa using h0
  | cons p L ih =>
    intro g₀ a b T h0 hL
    rw [List.foldl_cons]
    refine ih _ a b T ?_ fun q hq => hL q (List.mem_cons_of_mem _ hq)
    by_cases hc : segment_collides obstacles (point_at pts p.1) (point_at pts p.2)
    · simpa [build_edge_step, hc] using h0
    · have hp := hL p (List.mem_cons_self _ _) (by simpa using hc)
      simp only [build_edge_step, hc, Bool.false_eq_true, if_false, update_edge]
      by_cases h1 : a = p.2 ∧ b = p.1
      · rw [if_pos h1]
        exact hp (Or.inr h1)
      · rw [if_neg h1]
        by_cases h2 : a = p.1 ∧ b = p.2
        · rw [if_pos h2]
          exact hp (Or.inl h2)
        · rw [if_neg h2]
          exact h0

lemma build_graph_cell (sqrtFn : α → α) (obstacles : List (Obstacle α))
    (pts : List (Coords α)) (i j : ℕ) (hij : i < j) (hj : j < pts.length) :
    build_avoidance_graph sqrtFn obstacles pts i j
      = (if segment_collides obstacles (point_at pts i) (point_at pts j) then none
         else some (calculate_distance sqrtFn (point_at pts i).x (point_at pts i).y
           (point_at pts j).x (point_at pts j).y)) ∧
    build_avoidance_graph sqrtFn obstacles pts j i
      = (if segment_collides obstacles (point_at pts i) (point_at pts j) then none
         else some (calculate_distance sqrtFn (point_at pts i).x (point_at pts i).y
           (point_at pts j).x (point_at pts j).y)) := by
  have hmem : (i, j) ∈ graph_pairs pts.length := mem_graph_pairs.mpr ⟨hij, hj⟩
  by_cases hc : segment_collides obstacles (point_at pts i) (point_at pts j)
  · rw [if_pos hc]
    constructor
    · refine build_fold_stable sqrtFn obstacles pts _ _ i j none rfl ?_
      intro p hp hpc hcov
      rcases hcov with ⟨rfl, rfl⟩ | ⟨h1, h2⟩
      · rw [hc] at hpc; cases hpc
      · have := (graph_pairs_fst_lt_snd hp).1
        omega
    · refine build_fold_stable sqrtFn obstacles pts _ _ j i none rfl ?_
      intro p hp hpc hcov
      rcases hcov with ⟨h1, h2⟩ | ⟨rfl, rfl⟩
      · have := (graph_pairs_fst_lt_snd hp).1
        omega
      · rw [hc] at hpc; cases hpc
  · rw [if_neg hc]
    obtain ⟨L₁, L₂, hLL⟩ := List.append_of_mem hmem
    have hsub : ∀ q ∈ L₂, q ∈ graph_pairs pts.length := by
      intro q hq
      rw [hLL]
      exact List.mem_append_right _ (List.mem_cons_of_mem _ hq)
    have hW : ∀ a b : ℕ,
        ((a = i ∧ b = j) ∨ (a = j ∧ b = i)) →
        List.foldl (build_edge_step sqrtFn obstacles pts)
          (fun _ _ => none) (graph_pairs pts.length) a b
          = some (calculate_distance sqrtFn (point_at pts i).x (point_at pts i).y
              (point_at pts j).x (point_at pts j).y) := by
      intro a b hab
      rw [hLL, List.foldl_append, List.foldl_cons]
      refine build_fold_stable sqrtFn obstacles pts L₂ _ a b _ ?_ ?_
      · simp only [build_edge_step, hc, Bool.false_eq_true, if_false, update_edge]
        rcases hab with ⟨ha, hb⟩ | ⟨ha, hb⟩
        · have h1 : ¬(a = j ∧ b = i) := by omega
          rw [if_neg h1, if_pos ⟨ha, hb⟩]
        · rw [if_pos ⟨ha, hb⟩]
      · intro q hq hqc hcov
        have hqlt := (graph_pairs_fst_lt_snd (hsub q hq)).1
        have hqij : q.1 = i ∧ q.2 = j := by
          rcases hab with ⟨ha, hb⟩ | ⟨ha, hb⟩ <;>
            rcases hcov with ⟨h1, h2⟩ | ⟨h1, h2⟩ <;> omega
        rw [hqij.1, hqij.2]
    exact ⟨hW i j (Or.inl ⟨rfl, rfl⟩), hW j i (Or.inr ⟨rfl, rfl⟩)⟩

end GraphClaims

/-- C3 (amended: the collision filter consults every dynamic obstacle, not only
those within world bounds): for every pair of valid points `i < j`, the adjacency
map of `build_avoidance_graph` contains the symmetric edge `(i, j)` with weight
the Euclidean distance between the points iff the segment between them crosses no
dynamic obstacle at all; otherwise neither cell holds an edge. -/
theorem claimC3 (obstacles : List (Obstacle ℝ)) (lim : TableLimits ℝ) (margin : ℝ)
    (startP finishP : Coords ℝ) (pts : List (Coords ℝ))
    (hpts : pts = valid_points lim margin obstacles startP finishP)
    (i j : ℕ) (hij : i < j) (hj : j < pts.length) :
    build_avoidance_graph Real.sqrt obstacles pts i j
      = (if segment_collides obstacles (point_at pts i) (point_at pts j) then none
         else some (Real.sqrt (((point_at pts j).x - (point_at pts i).x) ^ 2
           + ((point_at pts j).y - (point_at pts i).y) ^ 2))) ∧
    build_avoidance_graph Real.sqrt obstacles pts j i
      = (if segment_collides obstacles (point_at pts i) (point_at pts j) then none
         else some (Real.sqrt (((point_at pts j).x - (point_at pts i).x) ^ 2
           + ((point_at pts j).y - (point_at pts i).y) ^ 2))) :=
  build_graph_cell Real.sqrt obstacles pts i j hij hj

/-- Witness for C3: two valid points (start and finish), no obstacles. -/
theorem claimC3_witness :
    build_avoidance_graph Real.sqrt ([] : List (Obstacle ℝ))
        (valid_points ⟨0, 100, 0, 100⟩ 1 [] ⟨10, 10⟩ ⟨90, 90⟩) 0 1
      = (if segment_collides ([] : List (Obstacle ℝ))
            (point_at (valid_points ⟨0, 100, 0, 100⟩ 1 [] ⟨10, 10⟩ ⟨90, 90⟩) 0)
            (point_at (valid_points ⟨0, 100, 0, 100⟩ 1 [] ⟨10, 10⟩ ⟨90, 90⟩) 1) then none
         else some (Real.sqrt
           (((point_at (valid_points ⟨0, 100, 0, 100⟩ 1 [] ⟨10, 10⟩ ⟨90, 90⟩) 1).x
               - (point_at (valid_points ⟨0, 100, 0, 100⟩ 1 [] ⟨10, 10⟩ ⟨90, 90⟩) 0).x) ^ 2
             + ((point_at (valid_points ⟨0, 100, 0, 100⟩ 1 [] ⟨10, 10⟩ ⟨90, 90⟩) 1).y
               - (point_at (valid_points ⟨0, 100, 0, 100⟩ 1 [] ⟨10, 10⟩ ⟨90, 90⟩) 0).y) ^ 2))) :=
  (claimC3 [] ⟨0, 100, 0, 100⟩ 1 ⟨10, 10⟩ ⟨90, 90⟩ _ rfl 0 1 (by decide)
    (by simp [valid_points, validate_obstacle_points])).1

/-- Counterexample to C3 as stated: an obstacle whose center lies outside the
world bounds still blocks edges.  With a single such obstacle crossing every
segment, no in-bounds obstacle crosses the start-finish segment, yet the graph
holds no edge between the two valid points. -/
theorem claimC3_cex :
    is_point_in_table_limits (⟨0, 100, 0, 100⟩ : TableLimits ℝ) 0
        ((⟨fun _ => false, fun _ _ => true, id, ⟨1000, 1000⟩, []⟩ : Obstacle ℝ).center)
      = false ∧
    (∀ o ∈ [(⟨fun _ => false, fun _ _ => true, id, ⟨1000, 1000⟩, []⟩ : Obstacle ℝ)],
      is_point_in_table_limits ⟨0, 100, 0, 100⟩ 0 o.center = true →
      o.is_segment_crossing ⟨10, 10⟩ ⟨90, 90⟩ = false) ∧
    build_avoidance_graph Real.sqrt
        [(⟨fun _ => false, fun _ _ => true, id, ⟨1000, 1000⟩, []⟩ : Obstacle ℝ)]
        (valid_points ⟨0, 100, 0, 100⟩ 0
          [(⟨fun _ => false, fun _ _ => true, id, ⟨1000, 1000⟩, []⟩ : Obstacle ℝ)]
          ⟨10, 10⟩ ⟨90, 90⟩) 0 1
      = none := by
  have hlim : is_point_in_table_limits (⟨0, 100, 0, 100⟩ : TableLimits ℝ) 0
      ((⟨fun _ => false, fun _ _ => true, id, ⟨1000, 1000⟩, []⟩ : Obstacle ℝ).center)
      = false := by
    simp only [is_point_in_table_limits]
    norm_num
  refine ⟨hlim, ?_, ?_⟩
  · intro o ho h
    rcases List.mem_singleton.mp ho with rfl
    rw [hlim] at h
    cases h
  · have hcell := build_graph_cell Real.sqrt
      [(⟨fun _ => false, fun _ _ => true, id, ⟨1000, 1000⟩, []⟩ : Obstacle ℝ)]
      (valid_points ⟨0, 100, 0, 100⟩ 0
        [(⟨fun _ => false, fun _ _ => true, id, ⟨1000, 1000⟩, []⟩ : Obstacle ℝ)]
        ⟨10, 10⟩ ⟨90, 90⟩) 0 1 (by decide) ?_
    · rw [hcell.1, if_pos]
      rfl
    · simp [valid_points, validate_obstacle_points, hlim]

section LockClaims

variable {ι ρ : Type} [DecidableEq ι] [DecidableEq ρ] [Fintype ι]

lemma card_pending_update_of_eq (f : ι → WriterPc) (i : ι) (v : WriterPc)
    (h : writerPending v = writerPending (f i)) :
    (Finset.univ.filter fun x => writerPending (Function.update f i v x) = true).card
      = (Finset.univ.filter fun x => writerPending (f x) = true).card := by
  have hx : ∀ x, writerPending (Function.update f i v x) = writerPending (f x) := by
    intro x
    rcases eq_or_ne x i with rfl | hne
    · rw [Function.update_same, h]
    · rw [Function.update_noteq hne]
  simp only [hx]

lemma card_pending_update_add (f : ι → WriterPc) (i : ι) (v : WriterPc)
    (h1 : writerPending (f i) = false) (h2 : writerPending v = true) :
    (Finset.univ.filter fun x => writerPending (Function.update f i v x) = true).card
      = (Finset.univ.filter fun x => writerPending (f x) = true).card + 1 := by
  have hset : (Finset.univ.filter fun x => writerPending (Function.update f i v x) = true)
      = insert i (Finset.univ.filter fun x => writerPending (f x) = true) := by
    ext x
    rcases eq_or_ne x i with rfl | hne
    · simp [Function.update_same, h2]
    · simp [Function.update_noteq hne, hne]
  rw [hset, Finset.card_insert_of_not_mem]
  simp [h1]

lemma card_pending_update_sub (f : ι → WriterPc) (i : ι) (v : WriterPc)
    (h1 : writerPending (f i) = true) (h2 : writerPending v = false) :
    (Finset.univ.filter fun x => writerPending (Function.update f i v x) = true).card + 1
      = (Finset.univ.filter fun x => writerPending (f x) = true).card := by
  have hset : (Finset.univ.filter fun x => writerPending (Function.update f i v x) = true)
      = (Finset.univ.filter fun x => writerPending (f x) = true).erase i := by
    ext x
    rcases eq_or_ne x i with rfl | hne
    · simp [Function.update_same, h2]
    · simp [Function.update_noteq hne, hne]
  rw [hset, Finset.card_erase_add_one]
  simp [h1]

lemma lock_step_wrc_inv {s s' : LockState ι ρ}
    (hstep : LockStep s s') (hinv : s.write_request_count = pendingWriterCount s) :
    s'.write_request_count = pendingWriterCount s' := by
  cases hstep with
  | rStartFirst j h1 h2 h3 h4 => exact hinv
  | rStartMore j h1 h2 h3 h4 => exact hinv
  | rAcquireLock j h1 h2 => exact hinv
  | rFinish j h1 h2 => exact hinv
  | wStartRequest i h1 h2 =>
    have := card_pending_update_add s.wpc i .waitLock (by rw [h1]; rfl) rfl
    simp only [pendingWriterCount] at hinv ⊢
    simp [this, hinv]
  | wAcquireLock i h1 h2 =>
    have := card_pending_update_of_eq s.wpc i .writing (by rw [h1]; rfl)
    simp only [pendingWriterCount] at hinv ⊢
    simp [this, hinv]
  | wFinishDec i h1 h2 =>
    have hsub := card_pending_update_sub s.wpc i .postLock (by rw [h1]; rfl) rfl
    simp only [pendingWriterCount] at hinv ⊢
    omega
  | wRelease i h1 =>
    have := card_pending_update_of_eq s.wpc i .idle (by rw [h1]; rfl)
    simp only [pendingWriterCount] at hinv ⊢
    simp [this, hinv]

lemma lock_reachable_wrc_inv {s : LockState ι ρ} (h : LockReachable s) :
    s.write_request_count = pendingWriterCount s := by
  induction h with
  | refl =>
    simp [initLockState, pendingWriterCount, writerPending]
  | tail hsteps hstep ih => exact lock_step_wrc_inv hstep ih

/-- C8: in every reachable state of the WritePriorityLock transition system, a
reader is never admitted while a writer is pending: any step that increments
`reader_count` (the admission in `startReading`) is only enabled in a state where
`write_request_count = 0`, and by the counting invariant no writer sits between
its `write_request_count` increment in `startWriting` and the matching decrement
in `finishWriting` in such a state. -/
theorem claimC8 (s s' : LockState ι ρ) (hreach : LockReachable s)
    (hstep : LockStep s s') (hadm : s'.reader_count = s.reader_count + 1) :
    s.write_request_count = 0 ∧ ∀ i, writerPending (s.wpc i) = false := by
  have hinv := lock_reachable_wrc_inv hreach
  have hwrc : s.write_request_count = 0 := by
    cases hstep with
    | rStartFirst j h1 h2 h3 h4 => exact h3
    | rStartMore j h1 h2 h3 h4 => exact h3
    | rAcquireLock j h1 h2 => dsimp only at hadm; omega
    | rFinish j h1 h2 => dsimp only at hadm; omega
    | wStartRequest i h1 h2 => dsimp only at hadm; omega
    | wAcquireLock i h1 h2 => dsimp only at hadm; omega
    | wFinishDec i h1 h2 => dsimp only at hadm; omega
    | wRelease i h1 => dsimp only at hadm; omega
  refine ⟨hwrc, ?_⟩
  have hcard : (Finset.univ.filter fun i => writerPending (s.wpc i) = true).card = 0 := by
    rw [pendingWriterCount] at hinv
    omega
  intro i
  by_contra hne
  have hmem : i ∈ Finset.univ.filter fun x => writerPending (s.wpc x) = true := by
    simp only [Finset.mem_filter, Finset.mem_univ, true_and]
    revert hne
    cases writerPending (s.wpc i) <;> simp
  have := Finset.card_pos.mpr ⟨i, hmem⟩
  omega

/-- Witness for C8: the first reader admission from the initial state with one
writer thread and one reader thread. -/
theorem claimC8_witness :
    LockReachable (initLockState (Fin 1) (Fin 1)) ∧
    LockStep (initLockState (Fin 1) (Fin 1))
      { initLockState (Fin 1) (Fin 1) with
          rpc := Function.update (initLockState (Fin 1) (Fin 1)).rpc 0 .lockPending,
          reader_count := 1, mutexFree := false } ∧
    ((initLockState (Fin 1) (Fin 1)).write_request_count = 0 ∧
      ∀ i, writerPending ((initLockState (Fin 1) (Fin 1)).wpc i) = false) :=
  ⟨Relation.ReflTransGen.refl,
   LockStep.rStartFirst _ 0 rfl rfl rfl rfl,
   claimC8 _ _ Relation.ReflTransGen.refl
     (LockStep.rStartFirst _ 0 rfl rfl rfl rfl) rfl⟩

end LockClaims

section DijkstraProofs

variable {W : Type} [LinearOrderedAddCommMonoid W]

lemma select_min_aux (settled : List ℕ) (dist : ℕ → WithTop W) :
    ∀ (l : List ℕ) (acc : Option ℕ), (∀ j, acc = some j → j ∉ settled) →
      sel_cost dist (l.foldl (sel_step settled dist) acc) ≤ sel_cost dist acc ∧
      (∀ i ∈ l, i ∉ settled →
        sel_cost dist (l.foldl (sel_step settled dist) acc) ≤ dist i) ∧
      (∀ j, l.foldl (sel_step settled dist) acc = some j →
        j ∉ settled ∧ sel_cost dist (l.foldl (sel_step settled dist) acc) = dist j ∧
          (j ∈ l ∨ acc = some j)) ∧
      (l.foldl (sel_step settled dist) acc = none → acc = none) ∧
      (l.foldl (sel_step settled dist) acc = acc ∨
        sel_cost dist (l.foldl (sel_step settled dist) acc) < sel_cost dist acc) := by
  intro l
  induction l with
  | nil =>
    intro acc hacc
    exact ⟨le_rfl, by simp, fun j hj => ⟨hacc j hj, by rw [hj]; rfl, Or.inr hj⟩,
      fun h => h, Or.inl rfl⟩
  | cons x l ih =>
    intro acc hacc
    rw [List.foldl_cons]
    by_cases hx : x ∉ settled ∧ dist x < sel_cost dist acc
    · have hstep : sel_step settled dist acc x = some x := if_pos hx
      have hacc' : ∀ j, sel_step settled dist acc x = some j → j ∉ settled := by
        intro j hj
        rw [hstep] at hj
        cases hj
        exact hx.1
      obtain ⟨ih1, ih2, ih3, ih4, ih5⟩ := ih (sel_step settled dist acc x) hacc'
      have hcost : sel_cost dist (sel_step settled dist acc x) = dist x := by
        rw [hstep]; rfl
      refine ⟨?_, ?_, ?_, ?_, ?_⟩
      · exact le_of_lt (lt_of_le_of_lt (hcost ▸ ih1) hx.2)
      · intro i hi hins
        rcases List.mem_cons.mp hi with rfl | hil
        · exact hcost ▸ ih1
        · exact ih2 i hil hins
      · intro j hj
        obtain ⟨hjs, hjc, hjm⟩ := ih3 j hj
        refine ⟨hjs, hjc, ?_⟩
        rcases hjm with hjl | hjacc
        · exact Or.inl (List.mem_cons_of_mem _ hjl)
        · rw [hstep] at hjacc
          cases hjacc
          exact Or.inl (List.mem_cons_self _ _)
      · intro h
        have := ih4 h
        rw [hstep] at this
        cases this
      · exact Or.inr (lt_of_le_of_lt (hcost ▸ ih1) hx.2)
    · have hstep : sel_step settled dist acc x = acc := if_neg hx
      rw [hstep]
      obtain ⟨ih1, ih2, ih3, ih4, ih5⟩ := ih acc hacc
      refine ⟨ih1, ?_, ?_, ih4, ih5⟩
      · intro i hi hins
        rcases List.mem_cons.mp hi with rfl | hil
        · have hge : sel_cost dist acc ≤ dist i := by
            by_contra hlt
            exact hx ⟨hins, not_le.mp hlt⟩
          exact le_trans ih1 hge
        · exact ih2 i hil hins
      · intro j hj
        obtain ⟨hjs, hjc, hjm⟩ := ih3 j hj
        exact ⟨hjs, hjc, hjm.imp (List.mem_cons_of_mem _) id⟩

lemma select_min_some_spec {n : ℕ} {settled : List ℕ} {dist : ℕ → WithTop W} {v : ℕ}
    (h : select_min n settled dist = some v) :
    v < n ∧ v ∉ settled ∧ dist v ≠ ⊤ ∧ ∀ u, u < n → u ∉ settled → dist v ≤ dist u := by
  obtain ⟨h1, h2, h3, h4, h5⟩ :=
    select_min_aux settled dist (List.range n) none (by simp)
  rw [select_min] at h
  obtain ⟨hvs, hvc, hvm⟩ := h3 v h
  have hvn : v < n := by
    rcases hvm with hvl | hvacc
    · exact List.mem_range.mp hvl
    · cases hvacc
  have hfin : dist v ≠ ⊤ := by
    rcases h5 with heq | hlt
    · rw [heq] at h
      cases h
    · rw [h] at hlt
      exact ne_top_of_lt hlt
  refine ⟨hvn, hvs, hfin, ?_⟩
  intro u hu hus
  have := h2 u (List.mem_range.mpr hu) hus
  rw [h] at this
  exact this

lemma select_min_none_spec {n : ℕ} {settled : List ℕ} {dist : ℕ → WithTop W}
    (h : select_min n settled dist = none) :
    ∀ u, u < n → u ∉ settled → dist u = ⊤ := by
  obtain ⟨h1, h2, h3, h4, h5⟩ :=
    select_min_aux settled dist (List.range n) none (by simp)
  intro u hu hus
  have := h2 u (List.mem_range.mpr hu) hus
  rw [select_min] at h
  rw [h] at this
  exact top_le_iff.mp this

lemma relax_dist_le (g : ℕ → ℕ → Option W) (v : ℕ) (dist : ℕ → WithTop W) (u : ℕ) :
    relax_dist g v dist u ≤ dist u := by
  cases hg : g v u with
  | none => simp [relax_dist, hg]
  | some c =>
    simp only [relax_dist, hg]
    split_ifs with h
    · exact le_of_lt h
    · exact le_rfl

lemma relax_cases (g : ℕ → ℕ → Option W) (v : ℕ) (dist : ℕ → WithTop W)
    (parent : ℕ → ℤ) (u : ℕ) :
    (relax_dist g v dist u = dist u ∧ relax_parent g v dist parent u = parent u) ∨
    (∃ c, g v u = some c ∧ dist v + (c : WithTop W) < dist u ∧
      relax_dist g v dist u = dist v + (c : WithTop W) ∧
      relax_parent g v dist parent u = (v : ℤ)) := by
  cases hg : g v u with
  | none => exact Or.inl ⟨by simp [relax_dist, hg], by simp [relax_parent, hg]⟩
  | some c =>
    by_cases h : dist v + (c : WithTop W) < dist u
    · exact Or.inr ⟨c, rfl, h, by simp [relax_dist, hg, h], by simp [relax_parent, hg, h]⟩
    · exact Or.inl ⟨by simp [relax_dist, hg, h], by simp [relax_parent, hg, h]⟩

lemma relax_dist_le_edge (g : ℕ → ℕ → Option W) (v : ℕ) (dist : ℕ → WithTop W)
    (u : ℕ) (c : W) (hg : g v u = some c) :
    relax_dist g v dist u ≤ dist v + (c : WithTop W) := by
  simp only [relax_dist, hg]
  split_ifs with h
  · exact le_rfl
  · exact not_lt.mp h

lemma relax_skip_of_le (g : ℕ → ℕ → Option W) (v : ℕ) (dist : ℕ → WithTop W)
    (parent : ℕ → ℤ) (u : ℕ) (hnnW : ∀ i j c, g i j = some c → (0 : W) ≤ c)
    (hd : dist u ≤ dist v) :
    relax_dist g v dist u = dist u ∧ relax_parent g v dist parent u = parent u := by
  rcases relax_cases g v dist parent u with h | ⟨c, hg, hlt, _, _⟩
  · exact h
  · exfalso
    have hc : (0 : WithTop W) ≤ (c : WithTop W) := by
      exact_mod_cast hnnW v u c hg
    have hvv : dist v ≤ dist v + (c : WithTop W) := le_add_of_nonneg_right hc
    exact absurd (lt_of_lt_of_le hlt hd) (not_lt.mpr hvv)

lemma edge_weight_nonneg (g : ℕ → ℕ → Option W)
    (hnnW : ∀ i j c, g i j = some c → (0 : W) ≤ c) (a b : ℕ) :
    (0 : WithTop W) ≤ edge_weight g a b := by
  cases hg : g a b with
  | none => simp [edge_weight, hg]
  | some c =>
    simp only [edge_weight, hg]
    exact_mod_cast hnnW a b c hg

lemma chain_weight_nonneg (g : ℕ → ℕ → Option W)
    (hnnW : ∀ i j c, g i j = some c → (0 : W) ≤ c) :
    ∀ p : List ℕ, (0 : WithTop W) ≤ chain_weight g p := by
  intro p
  induction p with
  | nil => simp [chain_weight]
  | cons a p ih =>
    cases p with
    | nil => simp [chain_weight]
    | cons b rest =>
      rw [chain_weight]
      exact add_nonneg (edge_weight_nonneg g hnnW a b) ih

lemma chain_path_tail (g : ℕ → ℕ → Option W) (a b w : ℕ) (rest : List ℕ)
    (h : IsChainPath g (a :: b :: rest) a w) : IsChainPath g (b :: rest) b w := by
  obtain ⟨h1, h2, h3⟩ := h
  refine ⟨rfl, ?_, (List.chain'_cons.mp h3).2⟩
  simpa using h2

lemma chain_weight_ne_top (g : ℕ → ℕ → Option W) :
    ∀ (p : List ℕ) (u w : ℕ), IsChainPath g p u w → chain_weight g p ≠ ⊤ := by
  intro p
  induction p with
  | nil => intro u w h; cases h.1
  | cons a p ih =>
    intro u w h
    have ha : a = u := by
      have h1 := h.1
      simp only [List.head?_cons, Option.some.injEq] at h1
      exact h1
    subst ha
    cases p with
    | nil => simp [chain_weight]
    | cons b rest =>
      have hedge : (g a b).isSome = true := (List.chain'_cons.mp h.2.2).1
      obtain ⟨c, hc⟩ := Option.isSome_iff_exists.mp hedge
      rw [chain_weight]
      have htail := chain_path_tail g a b w rest h
      refine WithTop.add_ne_top.mpr ⟨?_, ih b w htail⟩
      simp [edge_weight, hc]

lemma chain_weight_concat (g : ℕ → ℕ → Option W) :
    ∀ (p : List ℕ) (a b : ℕ), p.getLast? = some a →
      chain_weight g (p ++ [b]) = chain_weight g p + edge_weight g a b := by
  intro p
  induction p with
  | nil => intro a b h; cases h
  | cons x p ih =>
    intro a b h
    cases p with
    | nil =>
      simp only [List.getLast?_singleton, Option.some.injEq] at h
      subst h
      show chain_weight g [x, b] = chain_weight g [x] + edge_weight g x b
      show edge_weight g x b + chain_weight g [b] = chain_weight g [x] + edge_weight g x b
      show edge_weight g x b + 0 = 0 + edge_weight g x b
      rw [add_zero, zero_add]
    | cons y rest =>
      have hlast : (y :: rest).getLast? = some a := by
        simpa [List.getLast?_cons_cons] using h
      have hsplit : (x :: y :: rest) ++ [b] = x :: ((y :: rest) ++ [b]) := by simp
      rw [hsplit]
      have hstep : chain_weight g (x :: ((y :: rest) ++ [b]))
          = edge_weight g x y + chain_weight g ((y :: rest) ++ [b]) := by
        rw [List.cons_append]
        rfl
      rw [hstep, ih a b hlast, chain_weight, add_assoc]

lemma chain_append_single (g : ℕ → ℕ → Option W) (p : List ℕ) (u a b : ℕ)
    (hp : IsChainPath g p u a) (hb : (g a b).isSome = true) :
    IsChainPath g (p ++ [b]) u b ∧
      chain_weight g (p ++ [b]) = chain_weight g p + edge_weight g a b := by
  obtain ⟨h1, h2, h3⟩ := hp
  refine ⟨⟨?_, ?_, ?_⟩, chain_weight_concat g p a b h2⟩
  · rcases p with _ | ⟨x, p⟩
    · cases h1
    · simpa using h1
  · simp [List.getLast?_concat]
  · rw [List.chain'_append]
    refine ⟨h3, List.chain'_singleton _, ?_⟩
    intro x hx y hy
    rw [h2] at hx
    simp only [Option.mem_def, Option.some.injEq] at hx
    subst hx
    simp only [List.head?_cons, Option.mem_def, Option.some.injEq] at hy
    subst hy
    exact hb

lemma parent_steps_succ (g : ℕ → ℕ → Option W) (S : List ℕ) (D : ℕ → WithTop W)
    (P : ℕ → ℤ) : ∀ (k : ℕ) (u : ℕ),
    parent_steps g S D P k u → parent_steps g S D P (k + 1) u := by
  intro k
  induction k with
  | zero => intro u h; exact Or.inl h
  | succ k ih =>
    intro u h
    rcases h with h | ⟨w, c, hp, hw, he, hd, hsteps⟩
    · exact Or.inl h
    · exact Or.inr ⟨w, c, hp, hw, he, hd, ih w hsteps⟩

lemma parent_steps_le (g : ℕ → ℕ → Option W) (S : List ℕ) (D : ℕ → WithTop W)
    (P : ℕ → ℤ) {k k' : ℕ} (hk : k ≤ k') {u : ℕ}
    (h : parent_steps g S D P k u) : parent_steps g S D P k' u := by
  induction hk with
  | refl => exact h
  | step _ ih => exact parent_steps_succ g S D P _ _ ih

lemma parent_steps_lift (g : ℕ → ℕ → Option W) (S S' : List ℕ)
    (D D' : ℕ → WithTop W) (P P' : ℕ → ℤ)
    (hS : ∀ x ∈ S, x ∈ S')
    (hD : ∀ x ∈ S, D' x = D x) (hP : ∀ x ∈ S, P' x = P x) :
    ∀ (k : ℕ) (u : ℕ), parent_steps g S D P k u → D' u = D u → P' u = P u →
      parent_steps g S' D' P' k u := by
  intro k
  induction k with
  | zero => intro u h _ _; exact h
  | succ k ih =>
    intro u h hDu hPu
    rcases h with h | ⟨w, c, hp, hw, he, hd, hsteps⟩
    · exact Or.inl h
    · refine Or.inr ⟨w, c, ?_, hS w hw, he, ?_, ih w hsteps (hD w hw) (hP w hw)⟩
      · rw [hPu]; exact hp
      · rw [hDu, hD w hw]; exact hd

lemma backtrack_of_steps (g : ℕ → ℕ → Option W) (S : List ℕ) (D : ℕ → WithTop W)
    (P : ℕ → ℤ) (hd0 : D START_INDEX = 0) :
    ∀ (k : ℕ) (u : ℕ), parent_steps g S D P k u → D u ≠ ⊤ →
      ∀ (acc : List ℕ) (fuel : ℕ), k < fuel →
      ∃ pref, backtrackAux P fuel (u : ℤ) acc = some (pref ++ acc) ∧
        IsChainPath g (START_INDEX :: pref) START_INDEX u ∧
        chain_weight g (START_INDEX :: pref) = D u := by
  intro k
  induction k with
  | zero =>
    intro u h hfin acc fuel hfuel
    subst h
    obtain ⟨f, rfl⟩ : ∃ f, fuel = f + 1 := ⟨fuel - 1, by omega⟩
    refine ⟨[], ?_, ⟨rfl, rfl, List.chain'_singleton _⟩,
        by rw [show chain_weight g [START_INDEX] = 0 from rfl]; exact hd0.symm⟩
    simp [backtrackAux, START_INDEX]
  | succ k ih =>
    intro u h hfin acc fuel hfuel
    rcases h with h | ⟨w, c, hp, hw, he, hdu, hsteps⟩
    · subst h
      obtain ⟨f, rfl⟩ : ∃ f, fuel = f + 1 := ⟨fuel - 1, by omega⟩
      refine ⟨[], ?_, ⟨rfl, rfl, List.chain'_singleton _⟩,
        by rw [show chain_weight g [START_INDEX] = 0 from rfl]; exact hd0.symm⟩
      simp [backtrackAux, START_INDEX]
    · by_cases hu0 : u = START_INDEX
      · subst hu0
        obtain ⟨f, rfl⟩ : ∃ f, fuel = f + 1 := ⟨fuel - 1, by omega⟩
        refine ⟨[], ?_, ⟨rfl, rfl, List.chain'_singleton _⟩,
        by rw [show chain_weight g [START_INDEX] = 0 from rfl]; exact hd0.symm⟩
        simp [backtrackAux, START_INDEX]
      · obtain ⟨f, rfl⟩ : ∃ f, fuel = f + 1 := ⟨fuel - 1, by omega⟩
        have hDw : D w ≠ ⊤ := by
          rw [hdu] at hfin
          exact (WithTop.add_ne_top.mp hfin).1
        obtain ⟨pref, hres, hchain, hweight⟩ :=
          ih w hsteps hDw (u :: acc) f (by omega)
        have hu0' : u ≠ 0 := by simpa [START_INDEX] using hu0
        have hcond : ¬((u : ℤ) = -1 ∨ (u : ℤ) = (START_INDEX : ℤ)) := by
          simp only [START_INDEX, Nat.cast_zero]
          omega
        have hstepeq : backtrackAux P (f + 1) (u : ℤ) acc
            = backtrackAux P f (P ((u : ℤ)).toNat) (((u : ℤ)).toNat :: acc) := by
          rw [backtrackAux, if_neg hcond]
        have htn : ((u : ℤ)).toNat = u := Int.toNat_natCast u
        rw [htn] at hstepeq
        rw [hp] at hstepeq
        obtain ⟨hchain2, hweight2⟩ :=
          chain_append_single g (START_INDEX :: pref) START_INDEX w u hchain
            (by rw [he]; rfl)
        refine ⟨pref ++ [u], ?_, by simpa using hchain2, ?_⟩
        · rw [hstepeq, hres]
          congr 1
          simp
        · have hcw : chain_weight g ((START_INDEX :: pref) ++ [u])
              = D w + edge_weight g w u := by rw [hweight2, hweight]
          have hew : edge_weight g w u = (c : WithTop W) := by simp [edge_weight, he]
          calc chain_weight g (START_INDEX :: (pref ++ [u]))
              = chain_weight g ((START_INDEX :: pref) ++ [u]) := by simp
            _ = D w + (c : WithTop W) := by rw [hcw, hew]
            _ = D u := hdu.symm

lemma chain_exit (g : ℕ → ℕ → Option W) (n : ℕ)
    (hrange : ∀ i j, (g i j).isSome = true → i < n ∧ j < n)
    (hnnW : ∀ i j c, g i j = some c → (0 : W) ≤ c)
    (S : List ℕ) (D : ℕ → WithTop W)
    (hfub : ∀ u w c, w ∈ S → g w u = some c → D u ≤ D w + (c : WithTop W)) :
    ∀ (p : List ℕ) (a b : ℕ), IsChainPath g p a b → a ∈ S → b ∉ S →
    ∃ x, x < n ∧ x ∉ S ∧ D x ≤ D a + chain_weight g p := by
  intro p
  induction p with
  | nil => intro a b h; cases h.1
  | cons a0 p ih =>
    intro a b h haS hbS
    have ha : a0 = a := by
      have h1 := h.1
      simp only [List.head?_cons, Option.some.injEq] at h1
      exact h1
    subst ha
    cases p with
    | nil =>
      have hb : a0 = b := by
        have h2 := h.2.1
        simp only [List.getLast?_singleton, Option.some.injEq] at h2
        exact h2
      exact absurd (hb ▸ haS) hbS
    | cons b0 rest =>
      have hedge : (g a0 b0).isSome = true := (List.chain'_cons.mp h.2.2).1
      obtain ⟨c, hc⟩ := Option.isSome_iff_exists.mp hedge
      have hwc : chain_weight g (a0 :: b0 :: rest)
          = edge_weight g a0 b0 + chain_weight g (b0 :: rest) := rfl
      have hew : edge_weight g a0 b0 = (c : WithTop W) := by simp [edge_weight, hc]
      by_cases hb0 : b0 ∈ S
      · obtain ⟨x, hx, hxs, hxb⟩ :=
          ih b0 b (chain_path_tail g a0 b0 b rest h) hb0 hbS
        refine ⟨x, hx, hxs, ?_⟩
        have h1 : D b0 ≤ D a0 + (c : WithTop W) := hfub b0 a0 c haS hc
        calc D x ≤ D b0 + chain_weight g (b0 :: rest) := hxb
          _ ≤ (D a0 + (c : WithTop W)) + chain_weight g (b0 :: rest) :=
              add_le_add_right h1 _
          _ = D a0 + ((c : WithTop W) + chain_weight g (b0 :: rest)) := add_assoc _ _ _
          _ = D a0 + chain_weight g (a0 :: b0 :: rest) := by rw [hwc, hew]
      · refine ⟨b0, (hrange a0 b0 hedge).2, hb0, ?_⟩
        have h1 : D b0 ≤ D a0 + (c : WithTop W) := hfub b0 a0 c haS hc
        have h2 : (c : WithTop W) ≤ (c : WithTop W) + chain_weight g (b0 :: rest) :=
          le_add_of_nonneg_right (chain_weight_nonneg g hnnW _)
        calc D b0 ≤ D a0 + (c : WithTop W) := h1
          _ ≤ D a0 + ((c : WithTop W) + chain_weight g (b0 :: rest)) :=
              add_le_add_left h2 _
          _ = D a0 + chain_weight g (a0 :: b0 :: rest) := by rw [hwc, hew]

lemma nodup_bounded_length_le (S : List ℕ) (n : ℕ) (hnd : S.Nodup)
    (hsub : ∀ u ∈ S, u < n) : S.length ≤ n := by
  classical
  have hcard : S.toFinset.card = S.length := List.toFinset_card_of_nodup hnd
  have hsubset : S.toFinset ⊆ Finset.range n := by
    intro x hx
    rw [List.mem_toFinset] at hx
    exact Finset.mem_range.mpr (hsub x hx)
  have := Finset.card_le_card hsubset
  rw [hcard, Finset.card_range] at this
  exact this

lemma step_mid (g : ℕ → ℕ → Option W) (n : ℕ)
    (hnnW : ∀ i j c, g i j = some c → (0 : W) ≤ c)
    (settled : List ℕ) (dist : ℕ → WithTop W) (parent : ℕ → ℤ) (v : ℕ)
    (inv : DijkInv g n settled dist parent v) (hvf : v ≠ FINISH_INDEX) :
    MidInv g n (settled ++ [v]) (relax_dist g v dist) (relax_parent g v dist parent) ∧
    (∀ u ∈ settled ++ [v], relax_dist g v dist u ≤ dist v) ∧
    (∀ z, z < n → z ∉ settled ++ [v] → dist v ≤ relax_dist g v dist z) := by
  have hsk : ∀ u ∈ settled, relax_dist g v dist u = dist u ∧
      relax_parent g v dist parent u = parent u :=
    fun u hu => relax_skip_of_le g v dist parent u hnnW (inv.dmono u hu)
  have hskv : relax_dist g v dist v = dist v ∧
      relax_parent g v dist parent v = parent v :=
    relax_skip_of_le g v dist parent v hnnW le_rfl
  have hlift : ∀ u k, parent_steps g settled dist parent k u →
      relax_dist g v dist u = dist u → relax_parent g v dist parent u = parent u →
      parent_steps g (settled ++ [v]) (relax_dist g v dist)
        (relax_parent g v dist parent) k u := by
    intro u k hk hDu hPu
    exact parent_steps_lift g settled (settled ++ [v]) dist (relax_dist g v dist)
      parent (relax_parent g v dist parent)
      (fun x hx => List.mem_append_left _ hx)
      (fun x hx => (hsk x hx).1) (fun x hx => (hsk x hx).2) k u hk hDu hPu
  refine ⟨⟨?_, ?_, ?_, ?_, ?_, ?_, ?_, ?_, ?_⟩, ?_, ?_⟩
  · rw [List.nodup_append]
    refine ⟨inv.nodup, List.nodup_singleton v, ?_⟩
    intro a ha hav
    rw [List.mem_singleton] at hav
    exact inv.vns (hav ▸ ha)
  · intro u hu
    rcases List.mem_append.mp hu with hu | hu
    · exact inv.sub u hu
    · rw [List.mem_singleton] at hu
      exact hu ▸ inv.vlt
  · rcases inv.smem with h0 | ⟨hS, hv0⟩
    · exact List.mem_append_left _ h0
    · refine List.mem_append_right _ ?_
      rw [List.mem_singleton, hv0]
      rfl
  · intro hmem
    rcases List.mem_append.mp hmem with h | h
    · exact inv.fin_ns h
    · rw [List.mem_singleton] at h
      exact hvf h.symm
  · have h0v : dist START_INDEX ≤ dist v := by
      rw [inv.d0]
      exact inv.dnn v
    rw [(relax_skip_of_le g v dist parent START_INDEX hnnW h0v).1]
    exact inv.d0
  · intro u
    rcases relax_cases g v dist parent u with ⟨hDu, _⟩ | ⟨c, hg, _, hDu, _⟩
    · rw [hDu]
      exact inv.dnn u
    · rw [hDu]
      exact add_nonneg (inv.dnn v) (by exact_mod_cast hnnW v u c hg)
  · intro u hu
    rcases List.mem_append.mp hu with hu | hu
    · rw [(hsk u hu).1]
      exact inv.dfin u hu
    · rw [List.mem_singleton] at hu
      subst hu
      rw [hskv.1]
      exact inv.dvfin
  · intro u w c hw hg
    rcases List.mem_append.mp hw with hw | hw
    · rw [(hsk w hw).1]
      exact le_trans (relax_dist_le g v dist u) (inv.fub u w c hw hg)
    · rw [List.mem_singleton] at hw
      rw [hw] at hg ⊢
      rw [hskv.1]
      exact relax_dist_le_edge g v dist u c hg
  · intro u hfin
    have hlen : (settled ++ [v]).length = settled.length + 1 := by simp
    rw [hlen]
    rcases relax_cases g v dist parent u with ⟨hDu, hPu⟩ | ⟨c, hg, hlt, hDu, hPu⟩
    · have hfin' : dist u ≠ ⊤ := by
        rw [← hDu]
        exact hfin
      exact parent_steps_le g _ _ _ (Nat.le_succ _)
        (hlift u settled.length (inv.pchain u hfin') hDu hPu)
    · refine Or.inr ⟨v, c, hPu, List.mem_append_right _ (List.mem_singleton.mpr rfl),
        hg, ?_, ?_⟩
      · rw [hDu, hskv.1]
      · exact hlift v settled.length (inv.pchain v inv.dvfin) hskv.1 hskv.2
  · intro u hu
    rcases List.mem_append.mp hu with hu | hu
    · rw [(hsk u hu).1]
      exact inv.dmono u hu
    · rw [List.mem_singleton] at hu
      subst hu
      rw [hskv.1]
  · intro z hz hzs
    have hzs' : z ∉ settled := fun h => hzs (List.mem_append_left _ h)
    rcases relax_cases g v dist parent z with ⟨hDz, _⟩ | ⟨c, hg, _, hDz, _⟩
    · rw [hDz]
      exact inv.dmin z hz hzs'
    · rw [hDz]
      exact le_add_of_nonneg_right (by exact_mod_cast hnnW v z c hg)

lemma select_some_inv (g : ℕ → ℕ → Option W) (n : ℕ) (S' : List ℕ)
    (D' : ℕ → WithTop W) (P' : ℕ → ℤ) (d : WithTop W)
    (mid : MidInv g n S' D' P')
    (E1 : ∀ u ∈ S', D' u ≤ d) (E2 : ∀ z, z < n → z ∉ S' → d ≤ D' z)
    {v' : ℕ} (h : select_min n S' D' = some v') :
    DijkInv g n S' D' P' v' := by
  obtain ⟨hvn, hvs, hvfin, hvmin⟩ := select_min_some_spec h
  exact ⟨mid.nodup, mid.sub, hvn, hvs, mid.fin_ns, Or.inl mid.s0, mid.d0, mid.dnn,
    mid.dfin, hvfin, hvmin, fun u hu => le_trans (E1 u hu) (E2 v' hvn hvs),
    mid.fub, mid.pchain⟩

lemma dijkstraLoop_step (g : ℕ → ℕ → Option W) (n fuel : ℕ) (settled : List ℕ)
    (dist : ℕ → WithTop W) (parent : ℕ → ℤ) (v : ℕ)
    (hvf : v ≠ FINISH_INDEX) (hvs : v ∉ settled) :
    dijkstraLoop g n (fuel + 1) settled dist parent v =
      match select_min n (settled ++ [v]) (relax_dist g v dist) with
      | none => .failure
      | some v' => dijkstraLoop g n fuel (settled ++ [v]) (relax_dist g v dist)
          (relax_parent g v dist parent) v' := by
  rw [dijkstraLoop]
  rw [if_neg hvf, if_neg hvs]

lemma dijkstraLoop_spec (g : ℕ → ℕ → Option W) (n : ℕ)
    (hrange : ∀ i j, (g i j).isSome = true → i < n ∧ j < n)
    (hnnW : ∀ i j c, g i j = some c → (0 : W) ≤ c) :
    ∀ (fuel : ℕ) (settled : List ℕ) (dist : ℕ → WithTop W) (parent : ℕ → ℤ) (v : ℕ),
    DijkInv g n settled dist parent v → n + 1 ≤ fuel + settled.length →
    (∃ D P S, dijkstraLoop g n fuel settled dist parent v = .success D P S ∧
        DijkInv g n S D P FINISH_INDEX) ∨
    (dijkstraLoop g n fuel settled dist parent v = .failure ∧
        ¬ ∃ p, IsChainPath g p START_INDEX FINISH_INDEX) := by
  intro fuel
  induction fuel with
  | zero =>
    intro settled dist parent v inv hfuel
    exfalso
    have hnd : (settled ++ [v]).Nodup := by
      rw [List.nodup_append]
      refine ⟨inv.nodup, List.nodup_singleton v, ?_⟩
      intro a ha hav
      rw [List.mem_singleton] at hav
      exact inv.vns (hav ▸ ha)
    have hsub : ∀ u ∈ settled ++ [v], u < n := by
      intro u hu
      rcases List.mem_append.mp hu with hu | hu
      · exact inv.sub u hu
      · rw [List.mem_singleton] at hu
        exact hu ▸ inv.vlt
    have hle := nodup_bounded_length_le (settled ++ [v]) n hnd hsub
    simp only [List.length_append, List.length_singleton] at hle
    omega
  | succ f ih =>
    intro settled dist parent v inv hfuel
    by_cases hvf : v = FINISH_INDEX
    · subst hvf
      left
      exact ⟨dist, parent, settled, rfl, inv⟩
    · obtain ⟨mid, E1, E2⟩ := step_mid g n hnnW settled dist parent v inv hvf
      rw [dijkstraLoop_step g n f settled dist parent v hvf inv.vns]
      cases hsel : select_min n (settled ++ [v]) (relax_dist g v dist) with
      | none =>
        right
        refine ⟨rfl, ?_⟩
        rintro ⟨p, hp⟩
        obtain ⟨x, hxn, hxs, hxle⟩ :=
          chain_exit g n hrange hnnW (settled ++ [v]) (relax_dist g v dist) mid.fub
            p START_INDEX FINISH_INDEX hp mid.s0 mid.fin_ns
        rw [select_min_none_spec hsel x hxn hxs, mid.d0, zero_add] at hxle
        exact chain_weight_ne_top g p _ _ hp (top_le_iff.mp hxle)
      | some v' =>
        have inv' := select_some_inv g n (settled ++ [v]) (relax_dist g v dist)
          (relax_parent g v dist parent) (dist v) mid E1 E2 hsel
        exact ih (settled ++ [v]) (relax_dist g v dist)
          (relax_parent g v dist parent) v' inv'
          (by simp only [List.length_append, List.length_singleton]; omega)

lemma dijkstraRun_spec (g : ℕ → ℕ → Option W) (n : ℕ)
    (hrange : ∀ i j, (g i j).isSome = true → i < n ∧ j < n)
    (hnnW : ∀ i j c, g i j = some c → (0 : W) ≤ c) (hn : 0 < n) :
    (∃ D P S, dijkstraRun g n = .success D P S ∧ DijkInv g n S D P FINISH_INDEX) ∨
    (dijkstraRun g n = .failure ∧
      (has_start_edge g n = false ∨ ¬ ∃ p, IsChainPath g p START_INDEX FINISH_INDEX)) := by
  cases hse : has_start_edge g n with
  | false =>
    right
    rw [dijkstraRun, if_neg (by rw [hse]; exact Bool.false_ne_true)]
    exact ⟨rfl, Or.inl rfl⟩
  | true =>
    rw [dijkstraRun, if_pos hse]
    have inv0 : DijkInv g n []
        (fun u => if u = START_INDEX then (0 : WithTop W) else ⊤)
        (fun _ => (-1 : ℤ)) START_INDEX := by
      refine ⟨List.nodup_nil, by simp, hn, by simp, by simp, Or.inr ⟨rfl, rfl⟩,
        by simp, ?_, by simp, by simp, ?_, by simp, by simp, ?_⟩
      · intro u
        by_cases h : u = START_INDEX <;> simp [h]
      · intro u _ _
        by_cases h : u = START_INDEX <;> simp [h]
      · intro u hu
        by_cases h : u = START_INDEX
        · exact h
        · exact absurd (by simp [h]) hu
    rcases dijkstraLoop_spec g n hrange hnnW (n + 1) []
        (fun u => if u = START_INDEX then (0 : WithTop W) else ⊤)
        (fun _ => (-1 : ℤ)) START_INDEX inv0 (by simp) with h | ⟨heq, hnp⟩
    · exact Or.inl h
    · exact Or.inr ⟨heq, Or.inr hnp⟩

lemma dijkstra_final (g : ℕ → ℕ → Option W) (n : ℕ)
    (hrange : ∀ i j, (g i j).isSome = true → i < n ∧ j < n)
    (hnnW : ∀ i j c, g i j = some c → (0 : W) ≤ c)
    (S : List ℕ) (D : ℕ → WithTop W) (P : ℕ → ℤ)
    (inv : DijkInv g n S D P FINISH_INDEX) :
    ∃ idxs, storedPathIdx P n = some idxs ∧
      IsChainPath g (idxs ++ [FINISH_INDEX]) START_INDEX FINISH_INDEX ∧
      chain_weight g (idxs ++ [FINISH_INDEX]) = D FINISH_INDEX ∧
      ∀ p, IsChainPath g p START_INDEX FINISH_INDEX →
        D FINISH_INDEX ≤ chain_weight g p := by
  have hfs : FINISH_INDEX ≠ START_INDEX := by
    rw [FINISH_INDEX, START_INDEX]
    exact Nat.one_ne_zero
  have hs0 : (START_INDEX : ℕ) ∈ S := by
    rcases inv.smem with h | ⟨_, h⟩
    · exact h
    · exact absurd h hfs
  obtain ⟨m, hm⟩ : ∃ m, S.length = m + 1 := by
    cases hS : S with
    | nil => rw [hS] at hs0; cases hs0
    | cons a t => exact ⟨t.length, by simp⟩
  have hch := inv.pchain FINISH_INDEX inv.dvfin
  rw [hm] at hch
  rcases hch with h | ⟨w, c, hPf, hwS, he, hDf, hsteps⟩
  · exact absurd h hfs
  · have hmn : m < n := by
      have := nodup_bounded_length_le S n inv.nodup inv.sub
      omega
    have hDw : D w ≠ ⊤ := by
      have h := inv.dvfin
      rw [hDf] at h
      exact (WithTop.add_ne_top.mp h).1
    obtain ⟨pref, hbt, hchain, hweight⟩ :=
      backtrack_of_steps g S D P inv.d0 m w hsteps hDw [] n hmn
    rw [List.append_nil] at hbt
    refine ⟨START_INDEX :: pref, ?_, ?_, ?_, ?_⟩
    · rw [storedPathIdx, hPf, hbt]
      rfl
    · have := (chain_append_single g (START_INDEX :: pref) START_INDEX w
        FINISH_INDEX hchain (by rw [he]; rfl)).1
      simpa using this
    · have := (chain_append_single g (START_INDEX :: pref) START_INDEX w
        FINISH_INDEX hchain (by rw [he]; rfl)).2
      have hew : edge_weight g w FINISH_INDEX = (c : WithTop W) := by
        simp [edge_weight, he]
      calc chain_weight g ((START_INDEX :: pref) ++ [FINISH_INDEX])
          = chain_weight g (START_INDEX :: pref) + edge_weight g w FINISH_INDEX := this
        _ = D w + (c : WithTop W) := by rw [hweight, hew]
        _ = D FINISH_INDEX := hDf.symm
    · intro p hp
      obtain ⟨x, hxn, hxs, hxle⟩ :=
        chain_exit g n hrange hnnW S D inv.fub p START_INDEX FINISH_INDEX hp
          hs0 inv.fin_ns
      rw [inv.d0, zero_add] at hxle
      exact le_trans (inv.dmin x hxn hxs) hxle

end DijkstraProofs

section DijkstraClaims

/-- C2: for every graph with non-negative edge weights whose edges lie among the
point indices (the shape `build_avoidance_graph` produces), when `dijkstra`
returns `true` the recovered route — the backtracked parent chain, stored
without the final finish entry — extended by the finish index is a path of the
adjacency map from index 0 (start) to index 1 (finish) whose total weight is
minimal over all such paths. -/
theorem claimC2 {W : Type} [LinearOrderedAddCommMonoid W]
    (g : ℕ → ℕ → Option W) (n : ℕ)
    (hrange : ∀ i j, (g i j).isSome = true → i < n ∧ j < n)
    (hnnW : ∀ i j c, g i j = some c → (0 : W) ≤ c)
    (hsucc : dijkstraSucceeds g n = true) :
    ∃ idxs, dijkstraStoredIdx g n = some idxs ∧
      IsChainPath g (idxs ++ [FINISH_INDEX]) START_INDEX FINISH_INDEX ∧
      ∀ p, IsChainPath g p START_INDEX FINISH_INDEX →
        chain_weight g (idxs ++ [FINISH_INDEX]) ≤ chain_weight g p := by
  rcases Nat.eq_zero_or_pos n with rfl | hn
  · simp [dijkstraSucceeds, dijkstraRun, has_start_edge] at hsucc
  rcases dijkstraRun_spec g n hrange hnnW hn with ⟨D, P, S, heq, inv⟩ | ⟨heq, _⟩
  · obtain ⟨idxs, hstore, hchain, hweight, hmin⟩ :=
      dijkstra_final g n hrange hnnW S D P inv
    refine ⟨idxs, ?_, hchain, ?_⟩
    · rw [dijkstraStoredIdx, dijkstraParents, heq]
      exact hstore
    · intro p hp
      rw [hweight]
      exact hmin p hp
  · have hfalse : dijkstraSucceeds g n = false := by
      rw [dijkstraSucceeds, heq]
    rw [hfalse] at hsucc
    cases hsucc

/-- Witness for C2 at the square graph of the spec's testable property: corners
0 (start) and 1 (finish) opposite, free corners 2 and 3, both diagonals blocked,
all four sides of weight 100.  The computed route is start, corner 2, finish,
and its total weight is 200, the sum of the two side weights. -/
theorem claimC2_witness :
    dijkstraSucceeds squareGraph 4 = true ∧
    dijkstraStoredIdx squareGraph 4 = some [START_INDEX, 2] ∧
    chain_weight squareGraph ([START_INDEX, 2] ++ [FINISH_INDEX])
      = ((200 : ℤ) : WithTop ℤ) ∧
    (∃ idxs, dijkstraStoredIdx squareGraph 4 = some idxs ∧
      IsChainPath squareGraph (idxs ++ [FINISH_INDEX]) START_INDEX FINISH_INDEX ∧
      ∀ p, IsChainPath squareGraph p START_INDEX FINISH_INDEX →
        chain_weight squareGraph (idxs ++ [FINISH_INDEX])
          ≤ chain_weight squareGraph p) := by
  refine ⟨by decide, by decide, by decide, claimC2 squareGraph 4 ?_ ?_ (by decide)⟩
  · intro i j h
    rw [squareGraph] at h
    split_ifs at h with hc
    · rcases hc with h1 | h1 | h1 | h1 | h1 | h1 | h1 | h1 <;> omega
    · cases h
  · intro i j c h
    rw [squareGraph] at h
    split_ifs at h
    simp only [Option.some.injEq] at h
    omega

/-- C5: for every graph with non-negative edge weights whose edges lie among
the point indices, the loop terminates (the fuel bound is never hit), and
`dijkstra` returns `false` exactly when the start node has no outgoing edge or
the finish is unreachable from the start in the adjacency map — the situation
in which some iteration finds no unvisited node of finite tentative
distance; in every other case it returns `true`. -/
theorem claimC5 {W : Type} [LinearOrderedAddCommMonoid W]
    (g : ℕ → ℕ → Option W) (n : ℕ)
    (hrange : ∀ i j, (g i j).isSome = true → i < n ∧ j < n)
    (hnnW : ∀ i j c, g i j = some c → (0 : W) ≤ c) (hn : 0 < n) :
    dijkstraRun g n ≠ DOutcome.fuelOut ∧
    (dijkstraSucceeds g n = false ↔
      has_start_edge g n = false ∨
        ¬ ∃ p, IsChainPath g p START_INDEX FINISH_INDEX) := by
  rcases dijkstraRun_spec g n hrange hnnW hn with ⟨D, P, S, heq, inv⟩ | ⟨heq, hc⟩
  · refine ⟨?_, ?_⟩
    · rw [heq]
      intro h
      cases h
    have htrue : dijkstraSucceeds g n = true := by
      rw [dijkstraSucceeds, heq]
    constructor
    · intro h
      rw [htrue] at h
      cases h
    · rintro (h | h)
      · rw [dijkstraRun, if_neg (by rw [h]; exact Bool.false_ne_true)] at heq
        cases heq
      · exfalso
        obtain ⟨idxs, _, hchain, _, _⟩ := dijkstra_final g n hrange hnnW S D P inv
        exact h ⟨idxs ++ [FINISH_INDEX], hchain⟩
  · refine ⟨?_, ?_⟩
    · rw [heq]
      intro h
      cases h
    constructor
    · intro _
      exact hc
    · intro _
      rw [dijkstraSucceeds, heq]

/-- Witness for C5 at the two-node graph with the single edge between start
and finish. -/
theorem claimC5_witness :
    dijkstraRun directGraph 2 ≠ DOutcome.fuelOut ∧
    (dijkstraSucceeds directGraph 2 = false ↔
      has_start_edge directGraph 2 = false ∨
        ¬ ∃ p, IsChainPath directGraph p START_INDEX FINISH_INDEX) :=
  claimC5 directGraph 2
    (by
      intro i j h
      rw [directGraph] at h
      split_ifs at h with hc
      · rcases hc with h1 | h1 <;> omega
      · cases h)
    (by
      intro i j c h
      rw [directGraph] at h
      split_ifs at h
      simp only [Option.some.injEq] at h
      omega)
    (by decide)

end DijkstraClaims

end Cogip
